import Mathlib

/-!
# messagebot: a deferred-message IRC relay

Shallow embedding of `messagebot.cpp` and proofs about its message lifecycle:
tokenizer, capture (`saveMessage`), store access (`getMessages`,
`removeOldMessages`, `addNewMessage`), delivery (`sendMessage`) and the IRC
event handlers.

Conventions of the embedding

* `std::string` is `Str = List Char`; every string the program handles comes
  from a C string, so it holds no NUL character.
* The SQLite table `messages` is a list of rows in insertion order.
* Calls into libircclient and SQLite are recorded as `Effect`s in a trace.
-/

namespace MessageBot

/-- A `std::string`: the list of its characters. -/
abbrev Str := List Char

/-! ## Utility stuff -/

/-- The predicate `std::isspace` in the "C" locale, which the stream and `trim`
both use: space, `\t`, `\n`, `\v`, `\f`, `\r`. -/
def isspace (c : Char) : Bool :=
  c == ' ' || c == '\t' || c == '\n' || c == Char.ofNat 11 || c == Char.ofNat 12 || c == '\r'

/-- State of a `std::stringstream` opened on a string: the unread characters and
the two state bits the program inspects. -/
structure sstream where
  buf : Str
  eofbit : Bool
  failbit : Bool
deriving DecidableEq, Repr

/-- The member `good()`: no state bit is set. -/
def sstream.good (ss : sstream) : Bool := !ss.eofbit && !ss.failbit

/-- The member `clear()`: reset the state bits. -/
def sstream.clear (ss : sstream) : sstream := { ss with eofbit := false, failbit := false }

/-- The extraction `ss >> field` of a `std::string` with `noskipws` set.
When the stream is not good the sentry sets `failbit` and nothing is read.
Otherwise characters are taken up to the next whitespace character or the end
of the buffer; reaching the end sets `eofbit`, extracting nothing sets
`failbit`.  The second component is the extracted field when the extraction
succeeded (`!fail()`). -/
def extractField (ss : sstream) : sstream × Option Str :=
  if !ss.good then ({ ss with failbit := true }, none)
  else
    let w := ss.buf.takeWhile (fun c => !isspace c)
    let rest := ss.buf.dropWhile (fun c => !isspace c)
    if w.isEmpty then ({ buf := rest, eofbit := rest.isEmpty, failbit := true }, none)
    else ({ buf := rest, eofbit := rest.isEmpty, failbit := false }, some w)

/-- The extraction `ss >> ws_delim` of one `char` with `noskipws` set. -/
def extractChar (ss : sstream) : sstream :=
  if !ss.good then { ss with failbit := true }
  else
    match ss.buf with
    | [] => { ss with eofbit := true, failbit := true }
    | _ :: cs => { ss with buf := cs }

/-- The `while(1)` loop of `split`; one unit of fuel per iteration, `none` when
the fuel runs out before the loop breaks. -/
def splitLoop : Nat → sstream → List Str → Option (List Str)
  | 0, _, _ => none
  | n + 1, ss, v =>
    match extractField ss with
    | (ss1, some field) => splitLoop n (extractChar ss1.clear) (v ++ [field])
    | (ss1, none) =>
      if ss1.eofbit then some v
      else splitLoop n (extractChar ss1.clear) (v ++ [[]])

/-- The function `split(str, v)` called on an empty vector `v`. The loop breaks
within `str.length + 2` iterations (`splitLoop_fuel`). -/
def split (str : Str) : List Str :=
  (splitLoop (str.length + 2) { buf := str, eofbit := false, failbit := false } []).getD []

/-- The function `ltrim`: erase the leading whitespace. -/
def ltrim (s : Str) : Str := s.dropWhile isspace

/-- The function `rtrim`: erase the trailing whitespace. -/
def rtrim (s : Str) : Str := (s.reverse.dropWhile isspace).reverse

/-- The function `trim`, that is `ltrim(rtrim(s))`. -/
def trim (s : Str) : Str := ltrim (rtrim s)

/-- Cut a list at every element satisfying `p`, keeping empty fields. -/
def fields {α : Type} (p : α → Bool) : List α → List (List α)
  | [] => [[]]
  | a :: as =>
    if p a then [] :: fields p as
    else
      match fields p as with
      | [] => [[a]]
      | f :: fs => (a :: f) :: fs

/-- Remove one final empty field when the list ends in an empty field. -/
def dropFinalEmpty (l : List Str) : List Str :=
  if l.getLast? = some [] then l.dropLast else l

/-- The tokenizer as the specification words it: cut at every whitespace
character, then remove one final empty field. -/
def splitSpec (s : Str) : List Str := dropFinalEmpty (fields isspace s)

/-! ## Message -/

/-- The struct `message`. The constructor stamps `dateAdded` with the current
time, which the embedding passes in where a `message` is constructed. -/
structure message where
  id : Int
  message : Str
  fromUser : Str
  toUser : Str
  dateAdded : Str
  isPrivate : Int
deriving DecidableEq, Repr

/-- The member function `message::buildMessage`. -/
def message.buildMessage (m : MessageBot.message) : Str :=
  let msg := "[B]Hi ".toList ++ m.toUser ++ "! ".toList ++ m.fromUser ++ " on ".toList
    ++ m.dateAdded ++ " wanted to tell you".toList
  let msg := if m.isPrivate ≠ 0 then msg ++ " (privately)".toList else msg
  let msg := msg ++ " this:[/B] [U]".toList ++ m.message
  msg ++ "[/U]".toList

/-! ## The SQLite table

The table `messages (id, message, from_user, to_user, date_added, is_private)`
is created outside the program.  A row holds the four text columns, the integer
key and the nullable `is_private`; ids are in the range of the C `int` that
`sqlite3_column_int` reads them into. -/

/-- One row of the table `messages`. -/
structure Row where
  id : Int
  message : Str
  from_user : Str
  to_user : Str
  date_added : Str
  is_private : Option Int
deriving DecidableEq, Repr

/-- Tokens of the part of SQL the select statement of `getMessages` can contain. -/
inductive Tok where
  | str (s : Str)
  | word (w : Str)
  | eq
  | comma
deriving DecidableEq, Repr

/-- State of the SQL tokenizer: between tokens, inside a word, inside a string
literal, or just after a quote that either closes the literal or starts a
doubled quote. -/
inductive LexState where
  | top
  | word (acc : Str)
  | str (acc : Str)
  | quote (acc : Str)
deriving DecidableEq, Repr

/-- The single quote character, which delimits an SQL string literal. -/
def quoteChar : Char := Char.ofNat 39

/-- Characters of an SQL identifier or keyword. -/
def isIdChar (c : Char) : Bool := c.isAlphanum || c == '_'

/-- Start a token at character `c`: the pending tokens are emitted and the
tokenizer goes on in the state `c` opens; a character that starts no token of
the fragment is a syntax error. -/
def lexStart (pending : List Tok) (c : Char) (k : LexState → Option (List Tok)) :
    Option (List Tok) :=
  if c == quoteChar then (k (.str [])).map (pending ++ ·)
  else if c == '=' then (k .top).map (pending ++ Tok.eq :: ·)
  else if c == ',' then (k .top).map (pending ++ Tok.comma :: ·)
  else if isspace c then (k .top).map (pending ++ ·)
  else if isIdChar c then (k (.word [c.toLower])).map (pending ++ ·)
  else none

/-- Tokenizer of SQLite for the fragment: string literals in single quotes (a
doubled quote stands for one quote character, there is no other escape),
case-insensitive words, `=`, `,` and blanks.  `none` is a syntax error. -/
def lexSql : LexState → Str → Option (List Tok)
  | .top, [] => some []
  | .word acc, [] => some [Tok.word acc]
  | .str _, [] => none
  | .quote acc, [] => some [Tok.str acc]
  | .top, c :: cs => lexStart [] c (fun st => lexSql st cs)
  | .word acc, c :: cs =>
    if isIdChar c then lexSql (.word (acc ++ [c.toLower])) cs
    else lexStart [Tok.word acc] c (fun st => lexSql st cs)
  | .str acc, c :: cs =>
    if c == quoteChar then lexSql (.quote acc) cs else lexSql (.str (acc ++ [c])) cs
  | .quote acc, c :: cs =>
    if c == quoteChar then lexSql (.str (acc ++ [quoteChar])) cs
    else lexStart [Tok.str acc] c (fun st => lexSql st cs)

/-- Resolve an operand: a string literal, or one of the text columns. -/
def operand : Tok → Option (Row → Str)
  | .str s => some (fun _ => s)
  | .word w =>
    if w = "to_user".toList then some (fun row => row.to_user)
    else if w = "from_user".toList then some (fun row => row.from_user)
    else if w = "message".toList then some (fun row => row.message)
    else if w = "date_added".toList then some (fun row => row.date_added)
    else none
  | .eq => none
  | .comma => none

/-- Compile a comparison `a = b` of two operands (`none` when the tokens are
not such a comparison). -/
def compileCmp : List Tok → Option (Row → Bool)
  | [a, .eq, b] =>
    match operand a, operand b with
    | some x, some y => some (fun row => decide (x row = y row))
    | _, _ => none
  | _ => none

/-- Compile a where clause of the fragment: comparisons joined by `or`. -/
def compileWhere (toks : List Tok) : Option (Row → Bool) :=
  let cmps := (fields (fun t => decide (t = Tok.word "or".toList)) toks).map compileCmp
  if cmps.all Option.isSome then
    some (fun row => cmps.any (fun c => match c with
      | some f => f row
      | none => false))
  else none

/-- The fixed head of the query of `getMessages`, up to the where clause. -/
def selectHead : Str :=
  "select id, message, from_user, date_added, is_private from messages where ".toList

/-- Remove the leading list `p` from `s`, when `s` starts with it. -/
def dropLeading {α : Type} [DecidableEq α] : List α → List α → Option (List α)
  | [], s => some s
  | _ :: _, [] => none
  | a :: p, b :: s => if a = b then dropLeading p s else none

/-- The tokens that follow `union` in a further select of the same columns of
the same table: `all select id, message, from_user, date_added, is_private
from messages where`. -/
def unionHead : List Tok :=
  [.word "all".toList, .word "select".toList, .word "id".toList, .comma,
   .word "message".toList, .comma, .word "from_user".toList, .comma,
   .word "date_added".toList, .comma, .word "is_private".toList,
   .word "from".toList, .word "messages".toList, .word "where".toList]

/-- Compile the selects that follow the first one, each given by the tokens
after its `union`. -/
def compileMore : List (List Tok) → Option (List (Row → Bool))
  | [] => some []
  | seg :: segs =>
    match dropLeading unionHead seg with
    | none => none
    | some clause =>
      match compileWhere clause, compileMore segs with
      | some keep, some keeps => some (keep :: keeps)
      | _, _ => none

/-- Model of SQLite (an external library) on the query of `getMessages`:
`sqlite3_prepare_v2` followed by `sqlite3_step` until no row is left.

The model covers a fragment of SQL, on which it agrees with SQLite: the fixed
head followed by a where clause that is a comparison `a = b` of string literals
and text columns, or several joined by `or`, and then any number of further
selects `union all select id, message, from_user, date_added, is_private from
messages where ...` with where clauses of the same kind.  The rows of the
selects come back one select after the other, each in table order.

`none` is a failed prepare.  For a text outside the fragment the model also
answers `none`, which need not be what SQLite does; the statements proved for
every identity are proved for identities without a quote, whose query is in
the fragment, and the other theorems evaluate the model at a text inside the
fragment. -/
def sqlite_select (sql : Str) (rows : List Row) : Option (List Row) :=
  match dropLeading selectHead sql with
  | none => none
  | some clause =>
    match lexSql .top clause with
    | none => none
    | some toks =>
      match fields (fun t => decide (t = Tok.word "union".toList)) toks with
      | [] => none
      | first :: more =>
        match compileWhere first, compileMore more with
        | some keep, some keeps =>
          some ((keep :: keeps).map (fun k => rows.filter k)).flatten
        | _, _ => none

/-! ## Database stuff -/

/-- What the program does to its surroundings: the IRC commands it sends and
the statements it runs that change the table.  `cmd_msg_mirc target markup` is
the call `irc_cmd_msg(session, target, irc_color_convert_to_mirc(markup))` of
`sendMessage`, recorded with the text handed to the colour conversion;
`cmd_msg target text` is a call `irc_cmd_msg(session, target, text)`. -/
inductive Effect where
  | cmd_msg (target text : Str)
  | cmd_msg_mirc (target markup : Str)
  | cmd_join (channel : Str)
  | sql_insert (r : message)
  | sql_delete (id : Int)
deriving DecidableEq, Repr

/-- Outcome of the SQLite calls that can fail for a reason outside the program
(`true`: the call returns an error code).  `deletePrepare` and `deleteStep`
are per id of the delete statement. -/
structure Faults where
  selectPrepare : Bool
  insertPrepare : Bool
  insertStep : Bool
  deletePrepare : Int → Bool
  deleteStep : Int → Bool

/-- Every SQLite call succeeds. -/
def noFaults : Faults := ⟨false, false, false, fun _ => false, fun _ => false⟩

/-- The state the program acts on: the table `messages` in insertion order, the
last id the table assigned, and the trace of effects so far. -/
structure World where
  rows : List Row
  lastId : Int
  trace : List Effect
deriving DecidableEq, Repr

/-- Append an effect to the trace. -/
def World.emit (w : World) (e : Effect) : World := { w with trace := w.trace ++ [e] }

/-- The SQL text `getMessages` builds by concatenation. -/
def getMessagesSql (toUser : Str) : Str :=
  "select id, message, from_user, date_added, is_private from messages where to_user = '".toList
    ++ toUser ++ "'".toList

/-- Body of the loop of `getMessages` for one result row: a `message` whose
`toUser` is the argument of the query and whose `isPrivate` stays 0 when the
column is NULL. -/
def readRow (toUser : Str) (row : Row) : message :=
  { id := row.id, message := row.message, fromUser := row.from_user, toUser := toUser,
    dateAdded := row.date_added, isPrivate := row.is_private.getD 0 }

/-- The function `getMessages`.  A failed prepare returns the empty vector. -/
def getMessages (F : Faults) (db : List Row) (toUser : Str) : List message :=
  if F.selectPrepare then []
  else
    match sqlite_select (getMessagesSql toUser) db with
    | none => []
    | some res => res.map (readRow toUser)

/-- The delete statement for `id` fails, at prepare or at step. -/
def deleteFails (F : Faults) (id : Int) : Bool := F.deletePrepare id || F.deleteStep id

/-- Body of the lambda of `removeOldMessages` for one message: the statement
`delete from messages where id = <id>` is prepared and stepped; a failure
returns from the lambda and leaves the table as it is. -/
def removeOne (F : Faults) (w : World) (r : message) : World :=
  let w1 := w.emit (.sql_delete r.id)
  if F.deletePrepare r.id then w1
  else if F.deleteStep r.id then w1
  else { w1 with rows := w1.rows.filter (fun row => row.id ≠ r.id) }

/-- The function `removeOldMessages`: `for_each` over the vector. -/
def removeOldMessages (F : Faults) (w : World) (messages : List message) : World :=
  messages.foldl (removeOne F) w

/-- Modelled from the spec: the id the table assigns to an inserted row (the
schema is not in the source).  The id is store-assigned and unique: one more
than the last id assigned. -/
def nextId (w : World) : Int := w.lastId + 1

/-- The function `addNewMessage`: insert with `id` NULL, so that the table
assigns the id.  A failed prepare or step returns false and leaves the table
as it is. -/
def addNewMessage (F : Faults) (w : World) (r : message) : Bool × World :=
  let w1 := w.emit (.sql_insert r)
  if F.insertPrepare then (false, w1)
  else if F.insertStep then (false, w1)
  else
    (true, { w1 with
      rows := w1.rows ++ [{ id := nextId w, message := r.message, from_user := r.fromUser,
                            to_user := r.toUser, date_added := r.dateAdded,
                            is_private := some r.isPrivate }],
      lastId := nextId w })

/-! ## Create and save the message -/

/-- The usage hint `saveMessage` returns for fewer than 3 tokens. -/
def usageHint : Str := "!msg <user> <message>".toList

/-- The apology `saveMessage` returns when the insert fails. -/
def storeApology : Str :=
  "Hmm, I couldn't store the message in the database. Might just want to tell them yourself.".toList

/-- The `for` loop of `saveMessage` over `tokens[2..]`: append each token
followed by a space. -/
def joinTokens (tokens : List Str) : Str :=
  (tokens.drop 2).foldl (fun msg t => msg ++ t ++ [' ']) []

/-- The `message` that `saveMessage` fills in from the tokens; `now` is the
time the constructor of `message` reads. -/
def parsedMessage (now fromUser : Str) (tokens : List Str) (isPrivate : Bool) : message :=
  { id := 0, message := trim (joinTokens tokens), fromUser := fromUser,
    toUser := tokens.getD 1 [], dateAdded := now,
    isPrivate := if isPrivate then 1 else 0 }

/-- The function `saveMessage`.  The result is the tuple and the new state. -/
def saveMessage (F : Faults) (now : Str) (w : World) (fromUser unparsedText : Str)
    (isPrivate : Bool) : (Bool × Str) × World :=
  let tokens := split unparsedText
  if tokens.length < 3 then ((false, usageHint), w)
  else
    match addNewMessage F w (parsedMessage now fromUser tokens isPrivate) with
    | (true, w1) => ((true, []), w1)
    | (false, w1) => ((false, storeApology), w1)

/-! ## IRC stuff -/

/-- The session context `irc_ctx_t`. -/
structure irc_ctx_t where
  channel : Str
  nick : Str
deriving DecidableEq, Repr

/-- Body of the lambda of `sendMessage` for one message: a private message
goes to `toUser`, any other to the channel of the session. -/
def sendOne (ctx : irc_ctx_t) (toUser : Str) (w : World) (r : message) : World :=
  if r.isPrivate ≠ 0 then w.emit (.cmd_msg_mirc toUser r.buildMessage)
  else w.emit (.cmd_msg_mirc ctx.channel r.buildMessage)

/-- The function `sendMessage`. -/
def sendMessage (F : Faults) (ctx : irc_ctx_t) (w : World) (toUser : Str) : World :=
  let messages := getMessages F w.rows toUser
  if messages.length ≠ 0 then
    removeOldMessages F (messages.foldl (sendOne ctx toUser) w) messages
  else w

/-- The handler `event_join`; `nickOf` is `irc_target_get_nick` of libircclient. -/
def event_join (F : Faults) (nickOf : Str → Str) (ctx : irc_ctx_t) (w : World)
    (origin : Str) : World :=
  sendMessage F ctx w (nickOf origin)

/-- The handler `event_connect`. -/
def event_connect (ctx : irc_ctx_t) (w : World) : World := w.emit (.cmd_join ctx.channel)

/-- The test `strncmp(text, "!msg", 4) == 0`. -/
def isMsgCommand (text : Str) : Bool := text.take 4 == "!msg".toList

/-- The reply of `event_channel` and `event_privmsg` to a command. -/
def replyText (nick : Str) (ok : Bool × Str) : Str :=
  if ok.1 then
    "Okay, ".toList ++ nick ++ ", whenever they log on (or switch nicks) I'll let them know".toList
  else ok.2

/-- The handler `event_channel`; an absent origin is `none`, `params` are the
`count` parameters of the event. -/
def event_channel (F : Faults) (now : Str) (nickOf : Str → Str) (ctx : irc_ctx_t) (w : World)
    (origin : Option Str) (params : List Str) : World :=
  match origin, params with
  | some o, [_, text] =>
    if isMsgCommand text then
      match saveMessage F now w (nickOf o) text false with
      | (ok, w1) => w1.emit (.cmd_msg ctx.channel (replyText (nickOf o) ok))
    else w
  | _, _ => w

/-- The handler `event_privmsg`. -/
def event_privmsg (F : Faults) (now : Str) (nickOf : Str → Str) (w : World)
    (origin : Option Str) (params : List Str) : World :=
  match origin, params with
  | some o, [_, text] =>
    if isMsgCommand text then
      match saveMessage F now w (nickOf o) text true with
      | (ok, w1) => w1.emit (.cmd_msg (nickOf o) (replyText (nickOf o) ok))
    else w
  | _, _ => w

/-- The handler `event_nick`. -/
def event_nick (F : Faults) (ctx : irc_ctx_t) (w : World) (origin : Option Str)
    (params : List Str) : World :=
  match origin, params with
  | some _, [newNick] => sendMessage F ctx w newNick
  | _, _ => w

/-- The numeric reply code `LIBIRC_RFC_RPL_NAMREPLY` of `libirc_rfcnumeric.h`. -/
def LIBIRC_RFC_RPL_NAMREPLY : Nat := 353

/-- The loop of `event_numeric` that builds `fulltext`: a space before every
parameter but the first. -/
def joinParams : Nat → List Str → Str → Str
  | _, [], fulltext => fulltext
  | i, p :: ps, fulltext => joinParams (i + 1) ps ((if i > 0 then fulltext ++ [' '] else fulltext) ++ p)

/-- The handler `event_numeric`. -/
def event_numeric (F : Faults) (ctx : irc_ctx_t) (w : World) (event : Nat)
    (params : List Str) : World :=
  if event = LIBIRC_RFC_RPL_NAMREPLY then
    (split (joinParams 0 params [])).foldl (sendMessage F ctx) w
  else w

/-! ## Runs -/

/-- An event of a run: a capture (a call of `saveMessage`) or a presence
trigger (a call of `sendMessage`). -/
inductive Event where
  | capture (now fromUser text : Str) (isPrivate : Bool)
  | trigger (toUser : Str)
deriving DecidableEq, Repr

/-- Process one event. -/
def step (F : Faults) (ctx : irc_ctx_t) (w : World) : Event → World
  | .capture now fromUser text isPrivate => (saveMessage F now w fromUser text isPrivate).2
  | .trigger toUser => sendMessage F ctx w toUser

/-- Process the events one after the other. -/
def run (F : Faults) (ctx : irc_ctx_t) (w : World) (evs : List Event) : World :=
  evs.foldl (step F ctx) w

/-- The ids of the messages the triggers of a run send, in the order sent. -/
def delivered (F : Faults) (ctx : irc_ctx_t) : World → List Event → List Int
  | _, [] => []
  | w, .trigger toUser :: evs =>
    (getMessages F w.rows toUser).map (fun m => m.id)
      ++ delivered F ctx (sendMessage F ctx w toUser) evs
  | w, e :: evs => delivered F ctx (step F ctx w e) evs

/-- The ids of the delete statements in a trace. -/
def deletedIds : List Effect → List Int
  | [] => []
  | .sql_delete id :: es => id :: deletedIds es
  | _ :: es => deletedIds es

/-- The messages sent by `sendMessage` in a trace, as (target, text). -/
def sentMessages : List Effect → List (Str × Str)
  | [] => []
  | .cmd_msg_mirc target markup :: es => (target, markup) :: sentMessages es
  | _ :: es => sentMessages es

/-- The replies sent by the command handlers in a trace, as (target, text). -/
def sentReplies : List Effect → List (Str × Str)
  | [] => []
  | .cmd_msg target text :: es => (target, text) :: sentReplies es
  | _ :: es => sentReplies es

/-- The string has no single quote character. -/
def quoteFree (s : Str) : Prop := ∀ c ∈ s, c ≠ quoteChar

/-- The string has no whitespace character. -/
def spaceFree (s : Str) : Prop := ∀ c ∈ s, isspace c = false

/-- No trigger of the run is for an identity with a quote. -/
def quoteFreeRun (evs : List Event) : Prop := ∀ r, Event.trigger r ∈ evs → quoteFree r

/-- The empty table, before any id was assigned, and the empty trace. -/
def emptyWorld : World := ⟨[], 0, []⟩

/-- The ids in the table are pairwise distinct and none exceeds the last id
assigned. -/
def idsFresh (w : World) : Prop :=
  (w.rows.map (fun row => row.id)).Nodup ∧ ∀ row ∈ w.rows, row.id ≤ w.lastId

/-! ## Concrete states used in the examples -/

/-- A session in the channel `#room`. -/
def ctx0 : irc_ctx_t := ⟨"#room".toList, "bot".toList⟩

/-- A public message from `carol` to `bob`. -/
def rowBob : Row := ⟨1, "hi".toList, "carol".toList, "bob".toList, "t0".toList, some 0⟩

/-- A private message from `erin` to `dave`. -/
def rowDave : Row := ⟨2, "psst".toList, "erin".toList, "dave".toList, "t1".toList, some 1⟩

/-- A table holding the message for `bob`. -/
def wBob : World := ⟨[rowBob], 1, []⟩

/-- A table holding the messages for `bob` and for `dave`. -/
def wTwo : World := ⟨[rowBob, rowDave], 2, []⟩

/-- An identity string with single quotes. -/
def quoted : Str := "x'or'1'='1".toList

/-- An identity string that closes the literal and adds a second select. -/
def unionIdentity : Str :=
  ("x'union all select id,message,from_user,date_added,is_private "
    ++ "from messages where''='").toList

/-- The run that captures `!msg x hi` from `alice` and then triggers
`unionIdentity`. -/
def unionRun : List Event :=
  [.capture "t0".toList "alice".toList "!msg x hi".toList false, .trigger unionIdentity]

/-! ## The tokenizer -/

theorem fields_ne_nil {α : Type} (p : α → Bool) (l : List α) : fields p l ≠ [] := by
  cases l with
  | nil => simp [fields]
  | cons a as =>
    simp only [fields]
    split_ifs
    · simp
    · cases fields p as <;> simp

/-- A field free of separators, followed by a separator, is cut off as it is. -/
theorem fields_append_sep {α : Type} (p : α → Bool) (u : List α) (c : α) (rest : List α)
    (hu : ∀ x ∈ u, p x = false) (hc : p c = true) :
    fields p (u ++ c :: rest) = u :: fields p rest := by
  induction u with
  | nil => simp [fields, hc]
  | cons a as ih =>
    have ha : p a = false := hu a (List.mem_cons_self _ _)
    have ih1 := ih (fun x hx => hu x (List.mem_cons_of_mem _ hx))
    simp [fields, ha, ih1]

/-- A list free of separators is one field. -/
theorem fields_of_no_sep {α : Type} (p : α → Bool) (u : List α)
    (hu : ∀ x ∈ u, p x = false) : fields p u = [u] := by
  induction u with
  | nil => simp [fields]
  | cons a as ih =>
    have ha : p a = false := hu a (List.mem_cons_self _ _)
    have ih1 := ih (fun x hx => hu x (List.mem_cons_of_mem _ hx))
    simp [fields, ha, ih1]

theorem dropFinalEmpty_cons (x : Str) (l : List Str) (hl : l ≠ []) :
    dropFinalEmpty (x :: l) = x :: dropFinalEmpty l := by
  cases l with
  | nil => exact absurd rfl hl
  | cons b bs =>
    unfold dropFinalEmpty
    rw [List.getLast?_cons_cons, List.dropLast_cons_of_ne_nil (by simp)]
    split_ifs <;> rfl

/-- Once the stream is at its end with both bits set, the loop breaks at the
next iteration. -/
theorem splitLoop_at_eof (n : Nat) (v : List Str) :
    splitLoop (n + 1) ⟨[], true, true⟩ v = some v := by
  simp [splitLoop, extractField, sstream.good]

/-- The loop of `split` breaks within `buf.length + 2` iterations and returns
the fields of the unread text, less one final empty field. -/
theorem splitLoop_fuel (n : Nat) : ∀ (buf : Str) (v : List Str), buf.length + 2 ≤ n →
    splitLoop n ⟨buf, false, false⟩ v = some (v ++ dropFinalEmpty (fields isspace buf)) := by
  induction n with
  | zero => intro buf v h; omega
  | succ n ih =>
    intro buf v h
    have hsplit := List.takeWhile_append_dropWhile (fun c => !isspace c) buf
    have hw : ∀ x ∈ buf.takeWhile (fun c => !isspace c), isspace x = false := by
      intro x hx
      have := List.mem_takeWhile_imp hx
      simpa using this
    generalize hwd : buf.takeWhile (fun c => !isspace c) = w at hsplit hw
    generalize hrd : buf.dropWhile (fun c => !isspace c) = rest at hsplit
    have hlen : buf.length = w.length + rest.length := by rw [← hsplit, List.length_append]
    cases rest with
    | nil =>
      have hbuf : buf = w := by simpa using hsplit.symm
      cases w with
      | nil =>
        subst hbuf
        simp [splitLoop, extractField, sstream.good, fields, dropFinalEmpty]
      | cons a as =>
        obtain ⟨m, rfl⟩ : ∃ m, n = m + 1 := ⟨n - 1, by omega⟩
        have hf : fields isspace buf = [a :: as] := by
          rw [hbuf]; exact fields_of_no_sep _ _ hw
        simp [splitLoop, extractField, sstream.good, hwd, hrd, sstream.clear, extractChar,
          hf, dropFinalEmpty]
    | cons c cs =>
      have hc : isspace c = true := by
        have h1 := List.head_dropWhile_not (fun c => !isspace c) buf (by rw [hrd]; simp)
        simpa [hrd] using h1
      have hf : fields isspace buf = w :: fields isspace cs := by
        rw [← hsplit]; exact fields_append_sep _ _ _ _ hw hc
      have hcs : cs.length + 2 ≤ n := by simp at hlen; omega
      have ih1 := ih cs
      rw [hf, dropFinalEmpty_cons _ _ (fields_ne_nil _ _)]
      cases w with
      | nil =>
        simp [splitLoop, extractField, sstream.good, hwd, hrd, sstream.clear, extractChar,
          ih1 _ hcs]
      | cons a as =>
        simp [splitLoop, extractField, sstream.good, hwd, hrd, sstream.clear, extractChar,
          ih1 _ hcs]

/-- The function `split` returns the fields of its argument, less one final
empty field. -/
theorem split_eq_splitSpec (s : Str) : split s = splitSpec s := by
  unfold split splitSpec
  rw [splitLoop_fuel _ s [] (le_refl _)]
  simp

/-- Fields of a run of separators followed by a word. -/
theorem fields_seps_word {α : Type} (p : α → Bool) (ws v : List α)
    (hws : ∀ x ∈ ws, p x = true) (hv : ∀ x ∈ v, p x = false) :
    fields p (ws ++ v) = List.replicate ws.length [] ++ [v] := by
  induction ws with
  | nil => simpa using fields_of_no_sep p v hv
  | cons a as ih =>
    have ha : p a = true := hws a (List.mem_cons_self _ _)
    have ih1 := ih (fun x hx => hws x (List.mem_cons_of_mem _ hx))
    simp [fields, ha, ih1, List.replicate_succ]

theorem dropFinalEmpty_of_last (l : List Str) (v : Str) (hv : v ≠ []) :
    dropFinalEmpty (l ++ [v]) = l ++ [v] := by
  unfold dropFinalEmpty
  rw [List.getLast?_concat]
  simp [hv]

theorem dropFinalEmpty_concat_nil (l : List Str) : dropFinalEmpty (l ++ [[]]) = l := by
  unfold dropFinalEmpty
  rw [List.getLast?_concat]
  simp

theorem fields_concat_sep {α : Type} (p : α → Bool) (s : List α) (c : α) (hc : p c = true) :
    fields p (s ++ [c]) = fields p s ++ [[]] := by
  induction s with
  | nil => simp [fields, hc]
  | cons a as ih =>
    by_cases ha : p a = true
    · simp [fields, ha, ih]
    · cases hfa : fields p as with
      | nil => exact absurd hfa (fields_ne_nil _ _)
      | cons f fs => simp [fields, ha, ih, hfa]

/-- C10. The tokenizer keeps empty fields: for every string, `split` returns the
fields cut at every single whitespace character, with one final empty field
removed when the cut list ends in one.  Hence `k` whitespace characters between
two words give `k - 1` empty tokens, the empty string gives no token, one
trailing whitespace character adds no token and two add one empty token. -/
theorem split_keeps_empty_fields :
    (∀ s : Str, split s = dropFinalEmpty (fields isspace s)) ∧
    (∀ u ws v : Str, u ≠ [] → v ≠ [] → ws ≠ [] → (∀ c ∈ u, isspace c = false) →
      (∀ c ∈ v, isspace c = false) → (∀ c ∈ ws, isspace c = true) →
      split (u ++ ws ++ v) = u :: (List.replicate (ws.length - 1) [] ++ [v])) ∧
    split "!msg  bob  hi".toList = ["!msg".toList, [], "bob".toList, [], "hi".toList] ∧
    split [] = [] ∧
    (∀ (s : Str) (c : Char), isspace c = true → split (s ++ [c]) = fields isspace s) ∧
    (∀ (s : Str) (c d : Char), isspace c = true → isspace d = true →
      split (s ++ [c, d]) = fields isspace s ++ [[]]) := by
  refine ⟨split_eq_splitSpec, ?_, by decide, by decide, ?_, ?_⟩
  · intro u ws v hu hv hws hu1 hv1 hws1
    cases ws with
    | nil => exact absurd rfl hws
    | cons c cs =>
      have hc : isspace c = true := hws1 c (List.mem_cons_self _ _)
      have hcs : ∀ x ∈ cs, isspace x = true := fun x hx => hws1 x (List.mem_cons_of_mem _ hx)
      rw [split_eq_splitSpec]
      unfold splitSpec
      have h1 : u ++ c :: cs ++ v = u ++ c :: (cs ++ v) := by simp
      rw [h1, fields_append_sep _ _ _ _ hu1 hc, fields_seps_word _ _ _ hcs hv1]
      rw [dropFinalEmpty_cons _ _ (by simp)]
      rw [dropFinalEmpty_of_last _ _ hv]
      simp
  · intro s c hc
    rw [split_eq_splitSpec]
    unfold splitSpec
    rw [fields_concat_sep _ _ _ hc, dropFinalEmpty_concat_nil]
  · intro s c d hc hd
    rw [split_eq_splitSpec]
    unfold splitSpec
    have h1 : s ++ [c, d] = (s ++ [c]) ++ [d] := by simp
    rw [h1, fields_concat_sep _ _ _ hd, fields_concat_sep _ _ _ hc, dropFinalEmpty_concat_nil]

/-! ## Capture -/

/-- C3. Usage rejection: when the command text has fewer than 3 tokens, as
`!msg bob` and `!msg` have, `saveMessage` returns `(false, "!msg <user> <message>")`
and leaves the state as it is: no insert is attempted, the table and the trace
are unchanged. -/
theorem saveMessage_usage_rejection (F : Faults) (now : Str) (w : World) (fromUser text : Str)
    (isPrivate : Bool) (h : (split text).length < 3) :
    saveMessage F now w fromUser text isPrivate = ((false, "!msg <user> <message>".toList), w)
    ∧ (split "!msg bob".toList).length < 3 ∧ (split "!msg".toList).length < 3 := by
  refine ⟨?_, by decide, by decide⟩
  simp [saveMessage, h, usageHint]

/-- The command `!msg bob` sent to a table holding a message is rejected. -/
theorem saveMessage_usage_rejection_witness :
    (split "!msg bob".toList).length < 3 ∧
    (saveMessage noFaults "t1".toList wBob "alice".toList "!msg bob".toList true
        = ((false, "!msg <user> <message>".toList), wBob)
      ∧ (split "!msg bob".toList).length < 3 ∧ (split "!msg".toList).length < 3) :=
  ⟨by decide, saveMessage_usage_rejection noFaults "t1".toList wBob "alice".toList
    "!msg bob".toList true (by decide)⟩

/-- The insert succeeds exactly when neither SQLite call fails. -/
theorem addNewMessage_ok_iff (F : Faults) (w : World) (r : message) :
    (addNewMessage F w r).1 = true ↔ F.insertPrepare = false ∧ F.insertStep = false := by
  unfold addNewMessage
  cases h1 : F.insertPrepare <;> cases h2 : F.insertStep <;> simp

/-- C15. The result of a capture is `(true, "")` exactly when the text has at
least 3 tokens and `addNewMessage` returns true; with at least 3 tokens and a
failed insert it is `(false, apology)`, and the apology differs from the usage
hint. -/
theorem saveMessage_result (F : Faults) (now : Str) (w : World) (fromUser text : Str)
    (isPrivate : Bool) :
    ((saveMessage F now w fromUser text isPrivate).1 = (true, []) ↔
      3 ≤ (split text).length ∧
        (addNewMessage F w (parsedMessage now fromUser (split text) isPrivate)).1 = true)
    ∧ (3 ≤ (split text).length →
        (addNewMessage F w (parsedMessage now fromUser (split text) isPrivate)).1 = false →
        (saveMessage F now w fromUser text isPrivate).1
          = (false, ("Hmm, I couldn't store the message in the database. "
              ++ "Might just want to tell them yourself.").toList))
    ∧ ("Hmm, I couldn't store the message in the database. "
              ++ "Might just want to tell them yourself.").toList ≠ "!msg <user> <message>".toList := by
  refine ⟨?_, ?_, by decide⟩
  · unfold saveMessage
    by_cases h : (split text).length < 3
    · simp [h]
    · have h3 : 3 ≤ (split text).length := by omega
      simp only [h, if_false, h3, true_and]
      rcases hadd : addNewMessage F w (parsedMessage now fromUser (split text) isPrivate)
        with ⟨b, w1⟩
      cases b <;> simp
  · intro h3 hadd
    unfold saveMessage
    have h : ¬ (split text).length < 3 := by omega
    simp only [h, if_false]
    rcases hadd2 : addNewMessage F w (parsedMessage now fromUser (split text) isPrivate)
      with ⟨b, w1⟩
    rw [hadd2] at hadd
    simp at hadd
    subst hadd
    simp only [storeApology]
    decide

/-! ## Formatting -/

/-- The text of `buildMessage`, written as one concatenation. -/
theorem buildMessage_eq (m : message) :
    m.buildMessage = "[B]Hi ".toList ++ m.toUser ++ "! ".toList ++ m.fromUser ++ " on ".toList
      ++ m.dateAdded ++ " wanted to tell you".toList
      ++ (if m.isPrivate ≠ 0 then " (privately)".toList else [])
      ++ " this:[/B] [U]".toList ++ m.message ++ "[/U]".toList := by
  unfold message.buildMessage
  by_cases h : m.isPrivate = 0 <;> simp [h]

/-- C12. The text `buildMessage` produces follows the fixed template, with the
qualifier ` (privately)` exactly when `isPrivate` is non-zero; it is defined on
every message and depends on `toUser`, `fromUser`, `dateAdded`, `isPrivate` and
`message` only. -/
theorem buildMessage_template (m : message) :
    m.buildMessage = "[B]Hi ".toList ++ m.toUser ++ "! ".toList ++ m.fromUser ++ " on ".toList
      ++ m.dateAdded ++ " wanted to tell you".toList
      ++ (if m.isPrivate ≠ 0 then " (privately)".toList else [])
      ++ " this:[/B] [U]".toList ++ m.message ++ "[/U]".toList
    ∧ ∀ m2 : message, m2.toUser = m.toUser → m2.fromUser = m.fromUser →
        m2.dateAdded = m.dateAdded → m2.isPrivate = m.isPrivate → m2.message = m.message →
        m2.buildMessage = m.buildMessage := by
  constructor
  · exact buildMessage_eq m
  · intro m2 h1 h2 h3 h4 h5
    unfold message.buildMessage
    rw [h1, h2, h3, h4, h5]

/-! ## Store access -/

theorem removeOne_trace (F : Faults) (w : World) (r : message) :
    (removeOne F w r).trace = w.trace ++ [Effect.sql_delete r.id] := by
  unfold removeOne World.emit
  split_ifs <;> rfl

theorem removeOne_lastId (F : Faults) (w : World) (r : message) :
    (removeOne F w r).lastId = w.lastId := by
  unfold removeOne World.emit
  split_ifs <;> rfl

theorem removeOne_rows (F : Faults) (w : World) (r : message) :
    (removeOne F w r).rows
      = w.rows.filter (fun row => !(r.id == row.id && !deleteFails F r.id)) := by
  unfold removeOne World.emit deleteFails
  by_cases h1 : F.deletePrepare r.id = true
  · simp [h1]
  · by_cases h2 : F.deleteStep r.id = true
    · simp [h1, h2]
    · simp only [h1, h2, if_false]
      apply List.filter_congr
      intro row _
      by_cases h : r.id = row.id
      · simp [h]
      · simp [h, Ne.symm h]

/-- What `removeOldMessages` does: one delete statement per message of the
batch, in batch order; the rows whose id is the id of a batch message whose
delete did not fail are gone, every other row stays, in the same order. -/
theorem removeOldMessages_spec (F : Faults) (batch : List message) : ∀ w : World,
    (removeOldMessages F w batch).trace
        = w.trace ++ batch.map (fun m => Effect.sql_delete m.id)
    ∧ (removeOldMessages F w batch).rows
        = w.rows.filter (fun row => !(batch.any (fun m => m.id == row.id && !deleteFails F m.id)))
    ∧ (removeOldMessages F w batch).lastId = w.lastId := by
  induction batch with
  | nil => intro w; simp [removeOldMessages]
  | cons m ms ih =>
    intro w
    have h := ih (removeOne F w m)
    have hstep : removeOldMessages F w (m :: ms) = removeOldMessages F (removeOne F w m) ms := rfl
    rw [hstep]
    obtain ⟨h1, h2, h3⟩ := h
    refine ⟨?_, ?_, ?_⟩
    · rw [h1, removeOne_trace]; simp
    · rw [h2, removeOne_rows, List.filter_filter]
      apply List.filter_congr
      intro row _
      simp only [List.any_cons, Bool.not_or]
      rw [Bool.and_comm]
    · rw [h3, removeOne_lastId]

/-- C14. Best-effort batch delete: whatever deletes fail (at prepare or at
step), `removeOldMessages` attempts the delete of every id of the batch, in
batch order, and afterwards the table is the original table less the rows
whose id is the id of a batch message whose delete did not fail; the failure
of one delete does not keep a later one from being done. -/
theorem removeOldMessages_best_effort (F : Faults) (w : World) (batch : List message) :
    deletedIds (removeOldMessages F w batch).trace
        = deletedIds w.trace ++ batch.map (fun m => m.id)
    ∧ (removeOldMessages F w batch).rows
        = w.rows.filter (fun row =>
            !(batch.any (fun m => m.id == row.id
                && !(F.deletePrepare m.id || F.deleteStep m.id))))
    ∧ (∀ row ∈ w.rows, ∀ m ∈ batch, m.id = row.id → F.deletePrepare m.id = false →
        F.deleteStep m.id = false → row ∉ (removeOldMessages F w batch).rows) := by
  obtain ⟨h1, h2, _⟩ := removeOldMessages_spec F batch w
  have hd : ∀ (t : List Effect) (l : List message),
      deletedIds (t ++ l.map (fun m => Effect.sql_delete m.id))
        = deletedIds t ++ l.map (fun m => m.id) := by
    intro t l
    induction t with
    | nil =>
      induction l with
      | nil => rfl
      | cons a as ih => simpa [deletedIds] using ih
    | cons e es ih => cases e <;> simpa [deletedIds] using ih
  refine ⟨by rw [h1, hd], by rw [h2]; rfl, ?_⟩
  intro row _ m hm hid hp hs hmem
  rw [h2, List.mem_filter] at hmem
  have hany : batch.any (fun m => m.id == row.id && !deleteFails F m.id) = true := by
    rw [List.any_eq_true]
    refine ⟨m, hm, ?_⟩
    rw [deleteFails, hp, hs]
    simp [hid]
  rw [hany] at hmem
  simp at hmem

/-- The effect one message of the batch has in `sendMessage`. -/
theorem sendOne_foldl (ctx : irc_ctx_t) (toUser : Str) (batch : List message) : ∀ w : World,
    batch.foldl (sendOne ctx toUser) w
      = { w with trace := w.trace ++ batch.map (fun m =>
            Effect.cmd_msg_mirc (if m.isPrivate ≠ 0 then toUser else ctx.channel)
              m.buildMessage) } := by
  induction batch with
  | nil => intro w; simp
  | cons m ms ih =>
    intro w
    rw [List.foldl_cons, ih]
    unfold sendOne World.emit
    by_cases h : m.isPrivate = 0 <;> simp [h]

/-- What `sendMessage` does: one send per fetched message, in fetch order, to
the identity for a private message and to the channel otherwise, then one
delete statement per fetched message; the rows with the id of a fetched message
whose delete did not fail are gone, every other row stays. -/
theorem sendMessage_spec (F : Faults) (ctx : irc_ctx_t) (w : World) (toUser : Str) :
    (sendMessage F ctx w toUser).trace
        = w.trace
          ++ (getMessages F w.rows toUser).map (fun m =>
              Effect.cmd_msg_mirc (if m.isPrivate ≠ 0 then toUser else ctx.channel)
                m.buildMessage)
          ++ (getMessages F w.rows toUser).map (fun m => Effect.sql_delete m.id)
    ∧ (sendMessage F ctx w toUser).rows
        = w.rows.filter (fun row =>
            !((getMessages F w.rows toUser).any
                (fun m => m.id == row.id && !deleteFails F m.id)))
    ∧ (sendMessage F ctx w toUser).lastId = w.lastId := by
  unfold sendMessage
  by_cases h : (getMessages F w.rows toUser).length = 0
  · have h0 : getMessages F w.rows toUser = [] := List.length_eq_zero.mp h
    simp [h0]
  · simp only [ne_eq, h, not_false_eq_true, if_true]
    obtain ⟨h1, h2, h3⟩ := removeOldMessages_spec F (getMessages F w.rows toUser)
      ((getMessages F w.rows toUser).foldl (sendOne ctx toUser) w)
    rw [sendOne_foldl] at h1 h2 h3 ⊢
    exact ⟨h1, h2, h3⟩

/-- With nothing fetched, `sendMessage` does nothing. -/
theorem sendMessage_of_empty (F : Faults) (ctx : irc_ctx_t) (w : World) (toUser : Str)
    (h : getMessages F w.rows toUser = []) : sendMessage F ctx w toUser = w := by
  simp [sendMessage, h]

/-- C16. A fetch failure defers and never loses: when the query of
`getMessages` cannot be prepared, `getMessages` returns the empty vector and
`sendMessage` sends nothing, deletes nothing and leaves every row in the
table, those addressed to the identity included. -/
theorem sendMessage_fetch_failure (F : Faults) (ctx : irc_ctx_t) (w : World) (toUser : Str)
    (h : F.selectPrepare = true ∨ sqlite_select (getMessagesSql toUser) w.rows = none) :
    getMessages F w.rows toUser = [] ∧ sendMessage F ctx w toUser = w := by
  have h0 : getMessages F w.rows toUser = [] := by
    unfold getMessages
    rcases h with h | h
    · simp [h]
    · simp [h]
  exact ⟨h0, by simp [sendMessage, h0]⟩

/-- With a failing prepare the message for `bob` stays in the table. -/
theorem sendMessage_fetch_failure_witness :
    (({ noFaults with selectPrepare := true } : Faults).selectPrepare = true
      ∨ sqlite_select (getMessagesSql "bob".toList) wBob.rows = none)
    ∧ getMessages { noFaults with selectPrepare := true } wBob.rows "bob".toList = []
    ∧ sendMessage { noFaults with selectPrepare := true } ctx0 wBob "bob".toList = wBob :=
  ⟨Or.inl rfl, sendMessage_fetch_failure _ ctx0 wBob "bob".toList (Or.inl rfl)⟩

/-! ## Traces -/

theorem sentMessages_append (a b : List Effect) :
    sentMessages (a ++ b) = sentMessages a ++ sentMessages b := by
  induction a with
  | nil => rfl
  | cons e es ih => cases e <;> simp [sentMessages, ih]

theorem deletedIds_append (a b : List Effect) :
    deletedIds (a ++ b) = deletedIds a ++ deletedIds b := by
  induction a with
  | nil => rfl
  | cons e es ih => cases e <;> simp [deletedIds, ih]

theorem sentReplies_append (a b : List Effect) :
    sentReplies (a ++ b) = sentReplies a ++ sentReplies b := by
  induction a with
  | nil => rfl
  | cons e es ih => cases e <;> simp [sentReplies, ih]

theorem sentMessages_map_send (f : message → Str) (l : List message) :
    sentMessages (l.map (fun m => Effect.cmd_msg_mirc (f m) m.buildMessage))
      = l.map (fun m => (f m, m.buildMessage)) := by
  induction l with
  | nil => rfl
  | cons a as ih => simp [sentMessages, ih]

theorem sentMessages_map_delete (l : List message) :
    sentMessages (l.map (fun m => Effect.sql_delete m.id)) = [] := by
  induction l with
  | nil => rfl
  | cons a as ih => simp [sentMessages, ih]

theorem deletedIds_map_send (f : message → Str) (l : List message) :
    deletedIds (l.map (fun m => Effect.cmd_msg_mirc (f m) m.buildMessage)) = [] := by
  induction l with
  | nil => rfl
  | cons a as ih => simp [deletedIds, ih]

theorem deletedIds_map_delete (l : List message) :
    deletedIds (l.map (fun m => Effect.sql_delete m.id)) = l.map (fun m => m.id) := by
  induction l with
  | nil => rfl
  | cons a as ih => simp [deletedIds, ih]

/-- The messages `sendMessage` sends: one per fetched message, in fetch order,
to the identity when the message is private and to the channel otherwise. -/
theorem sendMessage_sent (F : Faults) (ctx : irc_ctx_t) (w : World) (toUser : Str) :
    sentMessages (sendMessage F ctx w toUser).trace
      = sentMessages w.trace ++ (getMessages F w.rows toUser).map (fun m =>
          (if m.isPrivate ≠ 0 then toUser else ctx.channel, m.buildMessage)) := by
  rw [(sendMessage_spec F ctx w toUser).1, sentMessages_append, sentMessages_append,
    sentMessages_map_send, sentMessages_map_delete]
  simp

/-- The delete statements `sendMessage` runs: one per fetched message. -/
theorem sendMessage_deleted (F : Faults) (ctx : irc_ctx_t) (w : World) (toUser : Str) :
    deletedIds (sendMessage F ctx w toUser).trace
      = deletedIds w.trace ++ (getMessages F w.rows toUser).map (fun m => m.id) := by
  rw [(sendMessage_spec F ctx w toUser).1, deletedIds_append, deletedIds_append,
    deletedIds_map_send, deletedIds_map_delete]
  simp

/-- The table and the trace after `saveMessage`: with fewer than 3 tokens
nothing happens; otherwise one insert is attempted, and when it succeeds one
row is appended, with the next id. -/
theorem saveMessage_world (F : Faults) (now : Str) (w : World) (fromUser text : Str)
    (isPrivate : Bool) :
    (saveMessage F now w fromUser text isPrivate).2.rows
      = (if 3 ≤ (split text).length ∧ F.insertPrepare = false ∧ F.insertStep = false then
          w.rows ++ [{ id := w.lastId + 1,
                       message := trim (joinTokens (split text)),
                       from_user := fromUser,
                       to_user := (split text).getD 1 [],
                       date_added := now,
                       is_private := some (if isPrivate then 1 else 0) }]
         else w.rows)
    ∧ (saveMessage F now w fromUser text isPrivate).2.trace
      = (if 3 ≤ (split text).length then
          w.trace ++ [Effect.sql_insert (parsedMessage now fromUser (split text) isPrivate)]
         else w.trace)
    ∧ (saveMessage F now w fromUser text isPrivate).2.lastId
      = (if 3 ≤ (split text).length ∧ F.insertPrepare = false ∧ F.insertStep = false then
          w.lastId + 1 else w.lastId) := by
  unfold saveMessage
  by_cases h : (split text).length < 3
  · have h3 : ¬ 3 ≤ (split text).length := by omega
    simp [h, h3]
  · have h3 : 3 ≤ (split text).length := by omega
    simp only [h, if_false, h3, true_and, if_true]
    unfold addNewMessage World.emit nextId parsedMessage
    cases h1 : F.insertPrepare <;> cases h2 : F.insertStep <;> simp

/-! ## Privacy -/

/-- C7. Privacy flag fidelity: a row stored through `event_privmsg` has
`is_private` 1 and a row stored through `event_channel` has `is_private` 0; a
fetched message carries the flag of its row; `sendMessage` addresses the send
of a fetched message to the identity when its flag is non-zero and to the
channel of the session otherwise; and join, nick change and roster reply all
deliver through `sendMessage`. -/
theorem privacy_flag_fidelity (F : Faults) (now : Str) (nickOf : Str → Str) (ctx : irc_ctx_t)
    (w : World) (origin : Option Str) (params : List Str) (toUser : Str) :
    ((event_privmsg F now nickOf w origin params).rows = w.rows ∨
      ∃ row, (event_privmsg F now nickOf w origin params).rows = w.rows ++ [row]
        ∧ row.is_private = some 1)
    ∧ ((event_channel F now nickOf ctx w origin params).rows = w.rows ∨
      ∃ row, (event_channel F now nickOf ctx w origin params).rows = w.rows ++ [row]
        ∧ row.is_private = some 0)
    ∧ (∀ row : Row, row.is_private = some 1 → (readRow toUser row).isPrivate = 1)
    ∧ (∀ row : Row, row.is_private = some 0 → (readRow toUser row).isPrivate = 0)
    ∧ sentMessages (sendMessage F ctx w toUser).trace
        = sentMessages w.trace ++ (getMessages F w.rows toUser).map (fun m =>
            (if m.isPrivate ≠ 0 then toUser else ctx.channel, m.buildMessage))
    ∧ (∀ o : Str, event_join F nickOf ctx w o = sendMessage F ctx w (nickOf o))
    ∧ (∀ o newNick : Str, event_nick F ctx w (some o) [newNick] = sendMessage F ctx w newNick)
    ∧ (∀ parts : List Str, event_numeric F ctx w LIBIRC_RFC_RPL_NAMREPLY parts
        = (split (joinParams 0 parts [])).foldl (sendMessage F ctx) w) := by
  refine ⟨?_, ?_, ?_, ?_, sendMessage_sent F ctx w toUser, fun _ => rfl, fun _ _ => rfl, ?_⟩
  · unfold event_privmsg
    rcases origin with _ | o
    · exact Or.inl rfl
    · rcases params with _ | ⟨p0, _ | ⟨text, _ | ⟨p2, ps⟩⟩⟩
      · exact Or.inl rfl
      · exact Or.inl rfl
      · by_cases hc : isMsgCommand text = true
        · simp only [hc, if_true]
          have hw := (saveMessage_world F now w (nickOf o) text true).1
          simp only [World.emit]
          rw [hw]
          by_cases hcond :
              3 ≤ (split text).length ∧ F.insertPrepare = false ∧ F.insertStep = false
          · rw [if_pos hcond]; exact Or.inr ⟨_, rfl, by simp⟩
          · rw [if_neg hcond]; exact Or.inl rfl
        · simp only [hc]
          exact Or.inl rfl
      · exact Or.inl rfl
  · unfold event_channel
    rcases origin with _ | o
    · exact Or.inl rfl
    · rcases params with _ | ⟨p0, _ | ⟨text, _ | ⟨p2, ps⟩⟩⟩
      · exact Or.inl rfl
      · exact Or.inl rfl
      · by_cases hc : isMsgCommand text = true
        · simp only [hc, if_true]
          have hw := (saveMessage_world F now w (nickOf o) text false).1
          simp only [World.emit]
          rw [hw]
          by_cases hcond :
              3 ≤ (split text).length ∧ F.insertPrepare = false ∧ F.insertStep = false
          · rw [if_pos hcond]; exact Or.inr ⟨_, rfl, by simp⟩
          · rw [if_neg hcond]; exact Or.inl rfl
        · simp only [hc]
          exact Or.inl rfl
      · exact Or.inl rfl
  · intro row h; simp [readRow, h]
  · intro row h; simp [readRow, h]
  · intro parts; simp [event_numeric]

/-! ## Joining with single spaces -/

theorem intercalate_cons_eq {α : Type} (sep p : List α) (ps : List (List α)) :
    List.intercalate sep (p :: ps) = p ++ (ps.map (fun q => sep ++ q)).flatten := by
  induction ps generalizing p with
  | nil => simp [List.intercalate]
  | cons q qs ih =>
    have h := ih q
    simp only [List.intercalate] at h ⊢
    rw [List.intersperse_cons_cons]
    simp [h]

theorem joinParams_loop (ps : List Str) : ∀ (i : Nat) (fulltext : Str),
    joinParams (i + 1) ps fulltext = fulltext ++ (ps.map (fun q => [' '] ++ q)).flatten := by
  induction ps with
  | nil => intro i fulltext; simp [joinParams]
  | cons p ps ih => intro i fulltext; simp [joinParams, ih]

/-- The loop of `event_numeric` joins the parameters with single spaces. -/
theorem joinParams_eq_intercalate (ps : List Str) :
    joinParams 0 ps [] = List.intercalate [' '] ps := by
  cases ps with
  | nil => rfl
  | cons p ps => rw [intercalate_cons_eq]; simp [joinParams, joinParams_loop]

theorem flatten_shift {α : Type} (sep : List α) (xs : List (List α)) :
    (xs.map (fun q => sep ++ q)).flatten ++ sep = sep ++ (xs.map (fun q => q ++ sep)).flatten := by
  induction xs with
  | nil => simp
  | cons x xs ih => simp [ih]

theorem foldl_append_space (l : List Str) : ∀ acc : Str,
    l.foldl (fun msg t => msg ++ t ++ [' ']) acc = acc ++ (l.map (fun q => q ++ [' '])).flatten := by
  induction l with
  | nil => intro acc; simp
  | cons x xs ih => intro acc; rw [List.foldl_cons, ih]; simp

theorem rtrim_append_space (s : Str) : rtrim (s ++ [' ']) = rtrim s := by
  simp [rtrim, isspace]

/-- The loop of `saveMessage` followed by `trim` is the join of the tokens from
the third on with single spaces, trimmed. -/
theorem trim_joinTokens (tokens : List Str) :
    trim (joinTokens tokens) = trim (List.intercalate [' '] (tokens.drop 2)) := by
  unfold joinTokens
  cases h : tokens.drop 2 with
  | nil => rfl
  | cons x xs =>
    rw [foldl_append_space, intercalate_cons_eq]
    have h1 : ([] : Str) ++ ((x :: xs).map (fun q => q ++ [' '])).flatten
        = (x ++ (xs.map (fun q => [' '] ++ q)).flatten) ++ [' '] := by
      rw [List.append_assoc, flatten_shift]
      simp
    rw [h1]
    unfold trim
    rw [rtrim_append_space]

/-! ## Roster -/

/-- C9. Roster fan-out: on `LIBIRC_RFC_RPL_NAMREPLY` the handler `event_numeric`
runs `sendMessage` once for each token of `split` of the parts joined with
single spaces, in token order; for the parts `alice` and `bob carol` the
identities triggered are `alice`, `bob`, `carol`, in that order. -/
theorem roster_fan_out (F : Faults) (ctx : irc_ctx_t) (w : World) (parts : List Str) :
    event_numeric F ctx w LIBIRC_RFC_RPL_NAMREPLY parts
      = (split (List.intercalate [' '] parts)).foldl (sendMessage F ctx) w
    ∧ split (List.intercalate [' '] ["alice".toList, "bob carol".toList])
      = ["alice".toList, "bob".toList, "carol".toList]
    ∧ event_numeric F ctx w LIBIRC_RFC_RPL_NAMREPLY ["alice".toList, "bob carol".toList]
      = sendMessage F ctx (sendMessage F ctx (sendMessage F ctx w "alice".toList) "bob".toList)
          "carol".toList := by
  have h1 : event_numeric F ctx w LIBIRC_RFC_RPL_NAMREPLY parts
      = (split (List.intercalate [' '] parts)).foldl (sendMessage F ctx) w := by
    simp [event_numeric, joinParams_eq_intercalate]
  have h2 : split (List.intercalate [' '] ["alice".toList, "bob carol".toList])
      = ["alice".toList, "bob".toList, "carol".toList] := by decide
  refine ⟨h1, h2, ?_⟩
  have h3 : event_numeric F ctx w LIBIRC_RFC_RPL_NAMREPLY ["alice".toList, "bob carol".toList]
      = (split (List.intercalate [' '] ["alice".toList, "bob carol".toList])).foldl
          (sendMessage F ctx) w := by
    simp [event_numeric, joinParams_eq_intercalate]
  rw [h3, h2]
  rfl

/-! ## Capture, continued -/

/-- C11. Capture field extraction: when the text has at least 3 tokens `t` and
the insert succeeds, `saveMessage` appends exactly one row, with `from_user`
the sender, `to_user` the token `t[1]`, `is_private` 1 or 0 after the flag and
`message` the tokens from `t[2]` on joined with single spaces and trimmed; the
loop of the code computes that join-then-trim, and `t[0]` has no influence on
the row. -/
theorem capture_field_extraction (F : Faults) (now : Str) (w : World) (fromUser text : Str)
    (isPrivate : Bool) (h3 : 3 ≤ (split text).length)
    (hok : (addNewMessage F w (parsedMessage now fromUser (split text) isPrivate)).1 = true) :
    (saveMessage F now w fromUser text isPrivate).2.rows
      = w.rows ++ [{ id := w.lastId + 1,
                     message := trim (List.intercalate [' '] ((split text).drop 2)),
                     from_user := fromUser,
                     to_user := (split text).getD 1 [],
                     date_added := now,
                     is_private := some (if isPrivate then 1 else 0) }]
    ∧ trim (joinTokens (split text)) = trim (List.intercalate [' '] ((split text).drop 2))
    ∧ ∀ text2 : Str, (split text2).tail = (split text).tail →
        (saveMessage F now w fromUser text2 isPrivate).2.rows
          = (saveMessage F now w fromUser text isPrivate).2.rows := by
  have hF := (addNewMessage_ok_iff F w _).mp hok
  have hrows : ∀ t : Str, 3 ≤ (split t).length →
      (saveMessage F now w fromUser t isPrivate).2.rows
        = w.rows ++ [{ id := w.lastId + 1,
                       message := trim (List.intercalate [' '] ((split t).tail.drop 1)),
                       from_user := fromUser,
                       to_user := (split t).tail.getD 0 [],
                       date_added := now,
                       is_private := some (if isPrivate then 1 else 0) }] := by
    intro t ht
    rw [(saveMessage_world F now w fromUser t isPrivate).1, if_pos ⟨ht, hF⟩, trim_joinTokens]
    cases hs : split t with
    | nil => rw [hs] at ht; simp at ht
    | cons a as => simp
  refine ⟨?_, trim_joinTokens _, ?_⟩
  · rw [hrows text h3]
    cases hs : split text with
    | nil => rw [hs] at h3; simp at h3
    | cons a as => simp
  · intro text2 htail
    have h32 : 3 ≤ (split text2).length := by
      have h1 : (split text2).tail.length = (split text).tail.length := by rw [htail]
      simp only [List.length_tail] at h1
      omega
    rw [hrows text h3, hrows text2 h32, htail]

/-- The command `!msg bob hello there` from `alice` on the empty table. -/
theorem capture_field_extraction_witness :
    3 ≤ (split "!msg bob hello there".toList).length
    ∧ (saveMessage noFaults "t0".toList emptyWorld "alice".toList "!msg bob hello there".toList
        true).2.rows
      = emptyWorld.rows ++ [{ id := emptyWorld.lastId + 1,
                              message := trim (List.intercalate [' ']
                                ((split "!msg bob hello there".toList).drop 2)),
                              from_user := "alice".toList,
                              to_user := (split "!msg bob hello there".toList).getD 1 [],
                              date_added := "t0".toList,
                              is_private := some (if true then 1 else 0) }] :=
  ⟨by decide, (capture_field_extraction noFaults "t0".toList emptyWorld "alice".toList
    "!msg bob hello there".toList true (by decide) (by decide)).1⟩

/-! ## Command handlers -/

/-- A capture sends no IRC message: the replies in the trace are those of
before. -/
theorem saveMessage_sentReplies (F : Faults) (now : Str) (w : World) (fromUser text : Str)
    (isPrivate : Bool) :
    sentReplies (saveMessage F now w fromUser text isPrivate).2.trace = sentReplies w.trace := by
  rw [(saveMessage_world F now w fromUser text isPrivate).2.1]
  by_cases h : 3 ≤ (split text).length
  · rw [if_pos h, sentReplies_append]; simp [sentReplies]
  · rw [if_neg h]

/-- The error string of a failed capture is the usage hint or the apology. -/
theorem saveMessage_error (F : Faults) (now : Str) (w : World) (fromUser text : Str)
    (isPrivate : Bool) (h : (saveMessage F now w fromUser text isPrivate).1.1 = false) :
    (saveMessage F now w fromUser text isPrivate).1.2 = usageHint
    ∨ (saveMessage F now w fromUser text isPrivate).1.2 = storeApology := by
  unfold saveMessage at h ⊢
  by_cases h3 : (split text).length < 3
  · simp [h3]
  · simp only [h3, if_false] at h ⊢
    rcases hadd : addNewMessage F w (parsedMessage now fromUser (split text) isPrivate)
      with ⟨b, w1⟩
    rw [hadd] at h
    cases b
    · simp
    · simp at h

/-- C19. Reply routing: for a text whose first four characters are `!msg`, sent
by `n`, the handler sends exactly one reply, to the channel of the session in
`event_channel` and to `n` in `event_privmsg`; the reply is the acknowledgement
naming `n` when `saveMessage` succeeded and otherwise the error string it
returned, which is the usage hint or the apology. -/
theorem reply_routing (F : Faults) (now : Str) (nickOf : Str → Str) (ctx : irc_ctx_t)
    (w : World) (o p0 text : Str) (h : text.take 4 = "!msg".toList) :
    sentReplies (event_channel F now nickOf ctx w (some o) [p0, text]).trace
      = sentReplies w.trace ++ [(ctx.channel,
          if (saveMessage F now w (nickOf o) text false).1.1 then
            "Okay, ".toList ++ nickOf o
              ++ ", whenever they log on (or switch nicks) I'll let them know".toList
          else (saveMessage F now w (nickOf o) text false).1.2)]
    ∧ sentReplies (event_privmsg F now nickOf w (some o) [p0, text]).trace
      = sentReplies w.trace ++ [(nickOf o,
          if (saveMessage F now w (nickOf o) text true).1.1 then
            "Okay, ".toList ++ nickOf o
              ++ ", whenever they log on (or switch nicks) I'll let them know".toList
          else (saveMessage F now w (nickOf o) text true).1.2)]
    ∧ (∀ p : Bool, (saveMessage F now w (nickOf o) text p).1.1 = false →
        (saveMessage F now w (nickOf o) text p).1.2 = "!msg <user> <message>".toList
        ∨ (saveMessage F now w (nickOf o) text p).1.2 = storeApology) := by
  have hc : isMsgCommand text = true := by simp [isMsgCommand, h]
  refine ⟨?_, ?_, fun p hp => saveMessage_error F now w (nickOf o) text p hp⟩
  · simp only [event_channel, hc, if_true, World.emit, sentReplies_append,
      saveMessage_sentReplies, replyText]
    simp [sentReplies]
  · simp only [event_privmsg, hc, if_true, World.emit, sentReplies_append,
      saveMessage_sentReplies, replyText]
    simp [sentReplies]

/-- The reply to `!msg bob hi` sent by `alice` in the channel. -/
theorem reply_routing_witness :
    "!msg bob hi".toList.take 4 = "!msg".toList
    ∧ sentReplies (event_channel noFaults "t0".toList id ctx0 emptyWorld (some "alice".toList)
        ["#room".toList, "!msg bob hi".toList]).trace
      = sentReplies emptyWorld.trace ++ [(ctx0.channel,
          if (saveMessage noFaults "t0".toList emptyWorld (id "alice".toList)
              "!msg bob hi".toList false).1.1 then
            "Okay, ".toList ++ id "alice".toList
              ++ ", whenever they log on (or switch nicks) I'll let them know".toList
          else (saveMessage noFaults "t0".toList emptyWorld (id "alice".toList)
              "!msg bob hi".toList false).1.2)] :=
  ⟨by decide, (reply_routing noFaults "t0".toList id ctx0 emptyWorld "alice".toList
    "#room".toList "!msg bob hi".toList (by decide)).1⟩

/-- C17, as the code has it: a room or direct text with an origin and exactly
2 parameters is captured and answered exactly when its first four characters
are `!msg` (the test `strncmp(text, "!msg", 4) == 0`); then the state is that of
`saveMessage` followed by one reply, and any other text leaves the state as it
is.  So `!msgs bob hi` is captured and `hello` is not. -/
theorem command_recognition (F : Faults) (now : Str) (nickOf : Str → Str) (ctx : irc_ctx_t)
    (w : World) (o p0 text : Str) :
    (sentReplies (event_channel F now nickOf ctx w (some o) [p0, text]).trace
        ≠ sentReplies w.trace ↔ text.take 4 = "!msg".toList)
    ∧ (sentReplies (event_privmsg F now nickOf w (some o) [p0, text]).trace
        ≠ sentReplies w.trace ↔ text.take 4 = "!msg".toList)
    ∧ (text.take 4 = "!msg".toList →
        event_channel F now nickOf ctx w (some o) [p0, text]
          = (saveMessage F now w (nickOf o) text false).2.emit
              (.cmd_msg ctx.channel
                (replyText (nickOf o) (saveMessage F now w (nickOf o) text false).1))
        ∧ event_privmsg F now nickOf w (some o) [p0, text]
          = (saveMessage F now w (nickOf o) text true).2.emit
              (.cmd_msg (nickOf o)
                (replyText (nickOf o) (saveMessage F now w (nickOf o) text true).1)))
    ∧ (text.take 4 ≠ "!msg".toList →
        event_channel F now nickOf ctx w (some o) [p0, text] = w
        ∧ event_privmsg F now nickOf w (some o) [p0, text] = w)
    ∧ "!msgs bob hi".toList.take 4 = "!msg".toList
    ∧ "hello".toList.take 4 ≠ "!msg".toList := by
  have hyes : text.take 4 = "!msg".toList →
      event_channel F now nickOf ctx w (some o) [p0, text]
          = (saveMessage F now w (nickOf o) text false).2.emit
              (.cmd_msg ctx.channel
                (replyText (nickOf o) (saveMessage F now w (nickOf o) text false).1))
        ∧ event_privmsg F now nickOf w (some o) [p0, text]
          = (saveMessage F now w (nickOf o) text true).2.emit
              (.cmd_msg (nickOf o)
                (replyText (nickOf o) (saveMessage F now w (nickOf o) text true).1)) := by
    intro h
    have hc : isMsgCommand text = true := by simp [isMsgCommand, h]
    simp [event_channel, event_privmsg, hc]
  have hno : text.take 4 ≠ "!msg".toList →
      event_channel F now nickOf ctx w (some o) [p0, text] = w
        ∧ event_privmsg F now nickOf w (some o) [p0, text] = w := by
    intro h
    have hc : isMsgCommand text = false := by
      unfold isMsgCommand
      exact beq_false_of_ne h
    simp [event_channel, event_privmsg, hc]
  refine ⟨?_, ?_, hyes, hno, by decide, by decide⟩
  · constructor
    · intro hne
      by_contra h
      exact hne (by rw [(hno h).1])
    · intro h hEq
      rw [(hyes h).1] at hEq
      simp [World.emit, sentReplies_append, saveMessage_sentReplies, sentReplies] at hEq
  · constructor
    · intro hne
      by_contra h
      exact hne (by rw [(hno h).2])
    · intro h hEq
      rw [(hyes h).2] at hEq
      simp [World.emit, sentReplies_append, saveMessage_sentReplies, sentReplies] at hEq

/-- C17, as stated, fails: the first token of `!msgs bob hi` is `!msgs`, not
`!msg`, yet `event_channel` stores the message for `bob` and sends the
acknowledgement to the channel. -/
theorem command_recognition_counterexample :
    (split "!msgs bob hi".toList).head? = some "!msgs".toList
    ∧ "!msgs".toList ≠ "!msg".toList
    ∧ (event_channel noFaults "t0".toList id ctx0 emptyWorld (some "alice".toList)
        ["#room".toList, "!msgs bob hi".toList]).rows
      = [⟨1, "hi".toList, "alice".toList, "bob".toList, "t0".toList, some 0⟩]
    ∧ sentReplies (event_channel noFaults "t0".toList id ctx0 emptyWorld (some "alice".toList)
        ["#room".toList, "!msgs bob hi".toList]).trace
      = [("#room".toList,
          "Okay, alice, whenever they log on (or switch nicks) I'll let them know".toList)] := by
  decide

/-! ## The query for an identity without a quote -/

theorem dropLeading_append {α : Type} [DecidableEq α] (p s : List α) :
    dropLeading p (p ++ s) = some s := by
  induction p with
  | nil => cases s <;> rfl
  | cons a p ih => simp [dropLeading, ih]

/-- A string without a quote, followed by a quote, is one string literal. -/
theorem lexSql_literal (r : Str) (hr : quoteFree r) : ∀ acc : Str,
    lexSql (.str acc) (r ++ [quoteChar]) = some [Tok.str (acc ++ r)] := by
  induction r with
  | nil => intro acc; simp [lexSql]
  | cons c cs ih =>
    intro acc
    have hc : c ≠ quoteChar := hr c (List.mem_cons_self _ _)
    have ih1 := ih (fun x hx => hr x (List.mem_cons_of_mem _ hx)) (acc ++ [c])
    simp [lexSql, hc, ih1]

/-- The tokens of the where clause `getMessages` builds, up to the literal. -/
theorem lexSql_clause_head (tail : Str) :
    lexSql .top ("to_user = '".toList ++ tail)
      = (lexSql (.str []) tail).map
          (fun ts => Tok.word "to_user".toList :: Tok.eq :: ts) := by
  cases h : lexSql (.str []) tail <;>
    simp [lexSql, lexStart, isIdChar, isspace, quoteChar, h, Char.isAlphanum, Char.isAlpha,
      Char.isUpper, Char.isLower, Char.isDigit, Char.toLower]

/-- For an identity without a quote the query of `getMessages` selects the
rows whose `to_user` is the identity, in table order. -/
theorem sqlite_select_quoteFree (rows : List Row) (toUser : Str) (hr : quoteFree toUser) :
    sqlite_select (getMessagesSql toUser) rows
      = some (rows.filter (fun row => decide (row.to_user = toUser))) := by
  have hsql : getMessagesSql toUser
      = selectHead ++ ("to_user = '".toList ++ (toUser ++ [quoteChar])) := by
    unfold getMessagesSql selectHead
    have h1 : "select id, message, from_user, date_added, is_private from messages where to_user = '".toList
        = "select id, message, from_user, date_added, is_private from messages where ".toList
          ++ "to_user = '".toList := by decide
    have h2 : "'".toList = [quoteChar] := by decide
    rw [h1, h2]
    simp
  unfold sqlite_select
  rw [hsql, dropLeading_append]
  simp only []
  rw [lexSql_clause_head, lexSql_literal toUser hr []]
  simp only [Option.map_some', List.nil_append]
  have hcw : compileWhere [Tok.word "to_user".toList, Tok.eq, Tok.str toUser]
      = some (fun row => [some (fun row : Row => decide (row.to_user = toUser))].any
          (fun c => match c with
            | some f => f row
            | none => false)) := by
    simp [compileWhere, fields, compileCmp, operand]
  have hf : fields (fun t => decide (t = Tok.word "union".toList))
      [Tok.word "to_user".toList, Tok.eq, Tok.str toUser]
      = [[Tok.word "to_user".toList, Tok.eq, Tok.str toUser]] := by
    simp [fields]
  rw [hf]
  simp only []
  rw [hcw]
  simp [compileMore]

/-- For an identity without a quote, `getMessages` returns the rows addressed
to the identity, in table order, unless the prepare fails. -/
theorem getMessages_quoteFree (F : Faults) (rows : List Row) (toUser : Str)
    (hr : quoteFree toUser) (hF : F.selectPrepare = false) :
    getMessages F rows toUser
      = (rows.filter (fun row => decide (row.to_user = toUser))).map (readRow toUser) := by
  unfold getMessages
  rw [sqlite_select_quoteFree rows toUser hr]
  simp [hF]

/-! ## At-most-once delivery -/

/-- With every delete succeeding, `sendMessage` removes exactly the rows whose
id is the id of a fetched message. -/
theorem sendMessage_noFaults_rows (ctx : irc_ctx_t) (w : World) (toUser : Str) :
    (sendMessage noFaults ctx w toUser).rows
      = w.rows.filter (fun row =>
          decide (row.id ∉ (getMessages noFaults w.rows toUser).map (fun m => m.id))) := by
  rw [(sendMessage_spec noFaults ctx w toUser).2.1]
  apply List.filter_congr
  intro row _
  by_cases h : row.id ∈ (getMessages noFaults w.rows toUser).map (fun m => m.id)
  · have h1 : (getMessages noFaults w.rows toUser).any
        (fun m => m.id == row.id && !deleteFails noFaults m.id) = true := by
      rw [List.any_eq_true]
      obtain ⟨m, hm, hid⟩ := List.mem_map.mp h
      exact ⟨m, hm, by simp [hid, deleteFails, noFaults]⟩
    simp [h1, h]
  · have h1 : (getMessages noFaults w.rows toUser).any
        (fun m => m.id == row.id && !deleteFails noFaults m.id) = false := by
      rw [List.any_eq_false]
      intro m hm hc
      apply h
      simp only [Bool.and_eq_true, beq_iff_eq] at hc
      exact List.mem_map.mpr ⟨m, hm, hc.1⟩
    simp [h1, h]

/-- For an identity without a quote the ids of the fetched messages are ids of
rows of the table, in table order. -/
theorem getMessages_ids_sublist (rows : List Row) (toUser : Str) (hr : quoteFree toUser) :
    ((getMessages noFaults rows toUser).map (fun m => m.id)).Sublist
      (rows.map (fun row => row.id)) := by
  rw [getMessages_quoteFree noFaults rows toUser hr rfl, List.map_map]
  have h1 : ((fun m : message => m.id) ∘ readRow toUser) = (fun row : Row => row.id) := rfl
  rw [h1]
  exact (List.filter_sublist rows).map _

/-- For an identity without a quote a second `sendMessage`, right after the
first, finds nothing to send. -/
theorem getMessages_after_send (ctx : irc_ctx_t) (w : World) (toUser : Str)
    (hr : quoteFree toUser) :
    getMessages noFaults (sendMessage noFaults ctx w toUser).rows toUser = [] := by
  rw [sendMessage_noFaults_rows, getMessages_quoteFree noFaults _ toUser hr rfl,
    getMessages_quoteFree noFaults _ toUser hr rfl]
  rw [List.map_eq_nil_iff, List.filter_eq_nil_iff]
  intro row hrow hkeep
  rw [List.mem_filter] at hrow
  have hnot := hrow.2
  simp only [decide_eq_true_eq] at hnot
  apply hnot
  rw [List.map_map]
  exact List.mem_map.mpr ⟨row, List.mem_filter.mpr ⟨hrow.1, hkeep⟩, rfl⟩

theorem idsFresh_step (ctx : irc_ctx_t) (w : World) (e : Event) (h : idsFresh w) :
    idsFresh (step noFaults ctx w e)
    ∧ (step noFaults ctx w e).lastId ≥ w.lastId
    ∧ ∀ i ∈ (step noFaults ctx w e).rows.map (fun row => row.id),
        i ∈ w.rows.map (fun row => row.id) ∨ w.lastId < i := by
  obtain ⟨hnd, hle⟩ := h
  unfold idsFresh
  cases e with
  | capture now fromUser text isPrivate =>
    simp only [step]
    obtain ⟨hr, _, hl⟩ := saveMessage_world noFaults now w fromUser text isPrivate
    by_cases hc : 3 ≤ (split text).length ∧ noFaults.insertPrepare = false
        ∧ noFaults.insertStep = false
    · rw [if_pos hc] at hr hl
      rw [hr, hl]
      refine ⟨⟨?_, ?_⟩, by omega, ?_⟩
      · rw [List.map_append, List.nodup_append]
        refine ⟨hnd, by simp, ?_⟩
        intro i hi hi2
        obtain ⟨row, hrow, rfl⟩ := List.mem_map.mp hi
        have := hle row hrow
        simp at hi2
        omega
      · intro row hrow
        rcases List.mem_append.mp hrow with h1 | h1
        · have := hle row h1; omega
        · simp at h1; rw [h1]
      · intro i hi
        rw [List.map_append, List.mem_append] at hi
        rcases hi with h1 | h1
        · exact Or.inl h1
        · simp at h1; right; omega
    · rw [if_neg hc] at hr hl
      rw [hr, hl]
      exact ⟨⟨hnd, hle⟩, le_refl _, fun i hi => Or.inl hi⟩
  | trigger toUser =>
    simp only [step]
    have hl := (sendMessage_spec noFaults ctx w toUser).2.2
    have hr := sendMessage_noFaults_rows ctx w toUser
    rw [hr, hl]
    refine ⟨⟨?_, ?_⟩, le_refl _, ?_⟩
    · exact ((List.filter_sublist w.rows).map _).nodup hnd
    · intro row hrow
      exact hle row (List.mem_filter.mp hrow).1
    · intro i hi
      obtain ⟨row, hrow, rfl⟩ := List.mem_map.mp hi
      exact Or.inl (List.mem_map.mpr ⟨row, (List.mem_filter.mp hrow).1, rfl⟩)

theorem delivered_cons (F : Faults) (ctx : irc_ctx_t) (w : World) (e : Event) (evs : List Event) :
    delivered F ctx w (e :: evs)
      = (match e with
          | .trigger toUser => (getMessages F w.rows toUser).map (fun m => m.id)
          | _ => [])
        ++ delivered F ctx (step F ctx w e) evs := by
  cases e <;> simp [delivered, step]

/-- In a run from a table with fresh ids whose trigger identities have no quote,
no id is delivered twice, a delivered id is in the table at the start or
assigned later, and a delivered id is not in the table at the end. -/
theorem delivered_nodup_aux (ctx : irc_ctx_t) (evs : List Event) (hq : quoteFreeRun evs) :
    ∀ w : World, idsFresh w →
    (delivered noFaults ctx w evs).Nodup
    ∧ (∀ i ∈ delivered noFaults ctx w evs,
        i ∈ w.rows.map (fun row => row.id) ∨ w.lastId < i)
    ∧ (∀ i ∈ (run noFaults ctx w evs).rows.map (fun row => row.id),
        i ∈ w.rows.map (fun row => row.id) ∨ w.lastId < i)
    ∧ (∀ i ∈ delivered noFaults ctx w evs,
        i ∉ (run noFaults ctx w evs).rows.map (fun row => row.id)) := by
  induction evs with
  | nil =>
    intro w _
    exact ⟨by simp [delivered], by simp [delivered], fun i hi => Or.inl hi,
      by simp [delivered]⟩
  | cons e evs ih =>
    intro w hw
    obtain ⟨hfresh, hlast, hids⟩ := idsFresh_step ctx w e hw
    have hqe : ∀ r, e = Event.trigger r → quoteFree r :=
      fun r hr => hq r (hr ▸ List.mem_cons_self _ _)
    have hqevs : quoteFreeRun evs := fun r hr => hq r (List.mem_cons_of_mem _ hr)
    obtain ⟨ih1, ih2, ih3, ih4⟩ := ih hqevs (step noFaults ctx w e) hfresh
    have hrun : run noFaults ctx w (e :: evs) = run noFaults ctx (step noFaults ctx w e) evs := rfl
    rw [hrun, delivered_cons]
    -- a later id is an old one that is still in the table, or a new one
    have hlater : ∀ i, (i ∈ (step noFaults ctx w e).rows.map (fun row => row.id)
        ∨ (step noFaults ctx w e).lastId < i) →
        (i ∈ (step noFaults ctx w e).rows.map (fun row => row.id) ∧
          i ∈ w.rows.map (fun row => row.id)) ∨ w.lastId < i := by
      intro i hi
      rcases hi with h1 | h1
      · rcases hids i h1 with h2 | h2
        · exact Or.inl ⟨h1, h2⟩
        · exact Or.inr h2
      · right; omega
    -- the ids sent by this event are in the table before and not after
    have hbatch : ∀ i ∈ (match e with
          | .trigger toUser =>
            (getMessages noFaults w.rows toUser).map (fun m : message => m.id)
          | _ => []),
        i ∈ w.rows.map (fun row => row.id)
        ∧ i ∉ (step noFaults ctx w e).rows.map (fun row => row.id) := by
      intro i hi
      cases e with
      | capture now fromUser text isPrivate => simp at hi
      | trigger toUser =>
        simp only at hi
        refine ⟨(getMessages_ids_sublist w.rows toUser (hqe toUser rfl)).subset hi, ?_⟩
        simp only [step]
        rw [sendMessage_noFaults_rows]
        intro hmem
        obtain ⟨row, hrow, hid⟩ := List.mem_map.mp hmem
        have h2 := (List.mem_filter.mp hrow).2
        simp only [decide_eq_true_eq] at h2
        exact h2 (hid ▸ hi)
    have hbatchnd : (match e with
          | .trigger toUser =>
            (getMessages noFaults w.rows toUser).map (fun m : message => m.id)
          | _ => []).Nodup := by
      cases e with
      | capture now fromUser text isPrivate => simp
      | trigger toUser =>
        exact (getMessages_ids_sublist w.rows toUser (hqe toUser rfl)).nodup hw.1
    have hle : ∀ i ∈ w.rows.map (fun row => row.id), i ≤ w.lastId := by
      intro i hi
      obtain ⟨row, hrow, rfl⟩ := List.mem_map.mp hi
      exact hw.2 row hrow
    refine ⟨?_, ?_, ?_, ?_⟩
    · rw [List.nodup_append]
      refine ⟨hbatchnd, ih1, ?_⟩
      intro i hi hi2
      obtain ⟨hin, hout⟩ := hbatch i hi
      rcases hlater i (ih2 i hi2) with h1 | h1
      · exact hout h1.1
      · have := hle i hin; omega
    · intro i hi
      rcases List.mem_append.mp hi with h1 | h1
      · exact Or.inl (hbatch i h1).1
      · rcases hlater i (ih2 i h1) with h2 | h2
        · exact Or.inl h2.2
        · exact Or.inr h2
    · intro i hi
      rcases hlater i (ih3 i hi) with h2 | h2
      · exact Or.inl h2.2
      · exact Or.inr h2
    · intro i hi
      rcases List.mem_append.mp hi with h1 | h1
      · intro hfin
        obtain ⟨hin, hout⟩ := hbatch i h1
        rcases hlater i (ih3 i hfin) with h2 | h2
        · exact hout h2.1
        · have := hle i hin; omega
      · exact ih4 i h1

/-- The trace of a run: the delete statements are those of the delivered ids,
and there is one send per delivered id. -/
theorem run_trace (F : Faults) (ctx : irc_ctx_t) (evs : List Event) : ∀ w : World,
    deletedIds (run F ctx w evs).trace = deletedIds w.trace ++ delivered F ctx w evs
    ∧ (sentMessages (run F ctx w evs).trace).length
        = (sentMessages w.trace).length + (delivered F ctx w evs).length := by
  induction evs with
  | nil => intro w; simp [run, delivered]
  | cons e evs ih =>
    intro w
    have hrun : run F ctx w (e :: evs) = run F ctx (step F ctx w e) evs := rfl
    obtain ⟨ih1, ih2⟩ := ih (step F ctx w e)
    rw [hrun, ih1, ih2, delivered_cons]
    cases e with
    | capture now fromUser text isPrivate =>
      simp only [step]
      rw [(saveMessage_world F now w fromUser text isPrivate).2.1]
      by_cases hc : 3 ≤ (split text).length
      · rw [if_pos hc]
        simp [deletedIds_append, sentMessages_append, deletedIds, sentMessages]
      · rw [if_neg hc]; simp
    | trigger toUser =>
      simp only [step]
      rw [sendMessage_deleted, sendMessage_sent]
      simp [List.append_assoc, Nat.add_assoc]

/-- At-most-once delivery when no trigger identity has a quote: in every run
of captures and such presence triggers from the empty table, with every store
operation succeeding and a new id for every insert, no message is sent twice:
the ids of the messages sent are pairwise distinct, each send goes with the
delete statement of its id, and a delivered id is no longer in the table.  A
second `sendMessage` for the same such identity right after a first sends
nothing and changes nothing. -/
theorem at_most_once_quoteFree (ctx : irc_ctx_t) (evs : List Event) (w : World) (toUser : Str)
    (hq : quoteFreeRun evs) (hr : quoteFree toUser) :
    (delivered noFaults ctx emptyWorld evs).Nodup
    ∧ deletedIds (run noFaults ctx emptyWorld evs).trace = delivered noFaults ctx emptyWorld evs
    ∧ (sentMessages (run noFaults ctx emptyWorld evs).trace).length
        = (delivered noFaults ctx emptyWorld evs).length
    ∧ (∀ i ∈ delivered noFaults ctx emptyWorld evs,
        i ∉ (run noFaults ctx emptyWorld evs).rows.map (fun row => row.id))
    ∧ getMessages noFaults (sendMessage noFaults ctx w toUser).rows toUser = []
    ∧ sendMessage noFaults ctx (sendMessage noFaults ctx w toUser) toUser
        = sendMessage noFaults ctx w toUser := by
  have h0 : idsFresh emptyWorld := by
    constructor
    · simp [emptyWorld]
    · intro row hrow; simp [emptyWorld] at hrow
  obtain ⟨h1, _, _, h4⟩ := delivered_nodup_aux ctx evs hq emptyWorld h0
  obtain ⟨h5, h6⟩ := run_trace noFaults ctx evs emptyWorld
  refine ⟨h1, ?_, ?_, h4, getMessages_after_send ctx w toUser hr, ?_⟩
  · rw [h5]; simp [emptyWorld, deletedIds]
  · rw [h6]; simp [emptyWorld, sentMessages]
  · exact sendMessage_of_empty noFaults ctx _ toUser (getMessages_after_send ctx w toUser hr)

/-- A run that leaves `hi` for `bob` and triggers `bob` twice. -/
theorem at_most_once_quoteFree_witness :
    (delivered noFaults ctx0 emptyWorld
      [.capture "t0".toList "alice".toList "!msg bob hi".toList false,
       .trigger "bob".toList, .trigger "bob".toList]).Nodup
    ∧ getMessages noFaults (sendMessage noFaults ctx0 wBob "bob".toList).rows "bob".toList = [] :=
  have h := at_most_once_quoteFree ctx0
    [.capture "t0".toList "alice".toList "!msg bob hi".toList false,
     .trigger "bob".toList, .trigger "bob".toList] wBob "bob".toList
    (by
      intro r hr
      simp at hr
      subst hr
      unfold quoteFree
      decide)
    (by unfold quoteFree; decide)
  ⟨h.1, h.2.2.2.2.1⟩

/-! ## Delivery for an identity without a quote -/

/-- For an identity without a quote and with every store operation succeeding,
`sendMessage` sends one message per row addressed to the identity, in table
order, and runs the delete statements of their ids; when the ids of the table
are distinct, the table afterwards is the table less the rows addressed to the
identity, and with no row addressed to the identity nothing happens. -/
theorem sendMessage_quoteFree (ctx : irc_ctx_t) (w : World) (toUser : Str)
    (hr : quoteFree toUser) :
    sentMessages (sendMessage noFaults ctx w toUser).trace
      = sentMessages w.trace
        ++ (w.rows.filter (fun row => decide (row.to_user = toUser))).map (fun row =>
            (if (readRow toUser row).isPrivate ≠ 0 then toUser else ctx.channel,
              (readRow toUser row).buildMessage))
    ∧ deletedIds (sendMessage noFaults ctx w toUser).trace
      = deletedIds w.trace
        ++ (w.rows.filter (fun row => decide (row.to_user = toUser))).map (fun row => row.id)
    ∧ ((w.rows.map (fun row => row.id)).Nodup →
        (sendMessage noFaults ctx w toUser).rows
          = w.rows.filter (fun row => decide (row.to_user ≠ toUser)))
    ∧ ((∀ row ∈ w.rows, row.to_user ≠ toUser) → sendMessage noFaults ctx w toUser = w) := by
  have hget := getMessages_quoteFree noFaults w.rows toUser hr rfl
  refine ⟨?_, ?_, ?_, ?_⟩
  · rw [sendMessage_sent, hget, List.map_map]; rfl
  · rw [sendMessage_deleted, hget, List.map_map]; rfl
  · intro hnd
    rw [sendMessage_noFaults_rows, hget, List.map_map]
    apply List.filter_congr
    intro row hrow
    have hinj := List.inj_on_of_nodup_map hnd
    by_cases h : row.to_user = toUser
    · have hmem : row.id ∈ (w.rows.filter (fun row => decide (row.to_user = toUser))).map
          ((fun m : message => m.id) ∘ readRow toUser) :=
        List.mem_map.mpr ⟨row, List.mem_filter.mpr ⟨hrow, by simp [h]⟩, rfl⟩
      simp [hmem, h]
    · have hmem : row.id ∉ (w.rows.filter (fun row => decide (row.to_user = toUser))).map
          ((fun m : message => m.id) ∘ readRow toUser) := by
        intro hm
        obtain ⟨row2, hrow2, hid⟩ := List.mem_map.mp hm
        have h2 := List.mem_filter.mp hrow2
        have heq : row2 = row := hinj h2.1 hrow hid
        rw [heq] at h2
        simp at h2
        exact h h2.2
      simp [hmem, h]
  · intro hnone
    apply sendMessage_of_empty
    rw [hget, List.map_eq_nil_iff, List.filter_eq_nil_iff]
    intro row hrow
    simp [hnone row hrow]

/-! ## Identities with a quote -/

/-- C18, at the failing input: for the identity `x'or'1'='1` the statement
`getMessages` builds is `... where to_user = 'x'or'1'='1'`; no row of the table
is addressed to that identity, yet both rows are fetched, both are sent (the
private one to the identity, the other to the channel) and both are deleted. -/
theorem getMessages_quoted_identity :
    getMessagesSql quoted
      = ("select id, message, from_user, date_added, is_private from messages "
          ++ "where to_user = 'x'or'1'='1'").toList
    ∧ wTwo.rows.filter (fun row => decide (row.to_user = quoted)) = []
    ∧ getMessages noFaults wTwo.rows quoted = [readRow quoted rowBob, readRow quoted rowDave]
    ∧ sentMessages (sendMessage noFaults ctx0 wTwo quoted).trace
      = [("#room".toList,
          "[B]Hi x'or'1'='1! carol on t0 wanted to tell you this:[/B] [U]hi[/U]".toList),
         ("x'or'1'='1".toList,
          ("[B]Hi x'or'1'='1! erin on t1 wanted to tell you (privately) this:[/B] "
            ++ "[U]psst[/U]").toList)]
    ∧ (sendMessage noFaults ctx0 wTwo quoted).rows = [] := by
  decide

/-- C8, at the failing input: the table holds no row addressed to
`x'or'1'='1`, yet `sendMessage` for that identity sends one message, runs one
delete statement and empties the table. -/
theorem empty_trigger_quoted_identity :
    (∀ row ∈ wBob.rows, row.to_user ≠ quoted)
    ∧ (sentMessages (sendMessage noFaults ctx0 wBob quoted).trace).length = 1
    ∧ deletedIds (sendMessage noFaults ctx0 wBob quoted).trace = [1]
    ∧ (sendMessage noFaults ctx0 wBob quoted).rows = []
    ∧ wBob.rows = [rowBob] := by
  decide

/-- C5, at the failing input: the rows addressed to `x'or'1'='1` are none, so
the texts to send are none, yet `sendMessage` for that identity sends the text
of the message for `bob`. -/
theorem delivery_order_quoted_identity :
    ((wBob.rows.filter (fun row => decide (row.to_user = quoted))).map
        (fun row => (readRow quoted row).buildMessage)) = []
    ∧ (sentMessages (sendMessage noFaults ctx0 wBob quoted).trace).map (fun s => s.2)
      = ["[B]Hi x'or'1'='1! carol on t0 wanted to tell you this:[/B] [U]hi[/U]".toList] := by
  decide

/-- C13, at the failing input: the ids of the table are distinct and no row is
addressed to `x'or'1'='1`, so the table less the rows addressed to it is the
table itself, yet after `sendMessage` for that identity the rows for `bob` and
`dave` are gone. -/
theorem delete_batch_quoted_identity :
    (wTwo.rows.map (fun row => row.id)).Nodup
    ∧ wTwo.rows.filter (fun row => decide (row.to_user ≠ quoted)) = [rowBob, rowDave]
    ∧ (sendMessage noFaults ctx0 wTwo quoted).rows = [] := by
  decide

/-- C1, at the failing input: the table holds no message for `x'or'1'='1`;
after `alice` leaves it the message `hi`, `sendMessage` for that identity sends
two messages, the one for `bob` and the one just captured. -/
theorem round_trip_quoted_identity :
    wBob.rows.filter (fun row => decide (row.to_user = quoted)) = []
    ∧ (saveMessage noFaults "t2".toList wBob "alice".toList "!msg x'or'1'='1 hi".toList
        true).1 = (true, [])
    ∧ sentMessages (sendMessage noFaults ctx0
        (saveMessage noFaults "t2".toList wBob "alice".toList "!msg x'or'1'='1 hi".toList
          true).2 quoted).trace
      = [("#room".toList,
          "[B]Hi x'or'1'='1! carol on t0 wanted to tell you this:[/B] [U]hi[/U]".toList),
         ("x'or'1'='1".toList,
          ("[B]Hi x'or'1'='1! alice on t2 wanted to tell you (privately) this:[/B] "
            ++ "[U]hi[/U]").toList)] := by
  decide

set_option maxRecDepth 100000

/-- C6, at the failing input: from the empty table `alice` leaves `hi` for `x`,
then the identity `x'union all select ... from messages where''='` is
triggered.  The statement built is two selects joined by `union all`, each of
which returns the row of id 1, so the one captured message is sent twice in
the same trigger (and its delete statement runs twice). -/
theorem at_most_once_union_identity :
    getMessagesSql unionIdentity
      = ("select id, message, from_user, date_added, is_private from messages "
          ++ "where to_user = 'x'union all select id,message,from_user,date_added,is_private "
          ++ "from messages where''=''").toList
    ∧ (step noFaults ctx0 emptyWorld
        (.capture "t0".toList "alice".toList "!msg x hi".toList false)).rows
      = [⟨1, "hi".toList, "alice".toList, "x".toList, "t0".toList, some 0⟩]
    ∧ delivered noFaults ctx0 emptyWorld unionRun = [1, 1]
    ∧ ¬ (delivered noFaults ctx0 emptyWorld unionRun).Nodup
    ∧ (sentMessages (run noFaults ctx0 emptyWorld unionRun).trace).map (fun s => s.1)
      = ["#room".toList, "#room".toList]
    ∧ (sentMessages (run noFaults ctx0 emptyWorld unionRun).trace).length = 2
    ∧ deletedIds (run noFaults ctx0 emptyWorld unionRun).trace = [1, 1] := by
  decide

/-! ## Empty tokens in a command -/

/-- C4, at the failing inputs: `!msg  bob` (two spaces) has the 3 tokens `!msg`,
the empty token and `bob`, and is inserted with an empty `to_user`; `!msg bob`
followed by two spaces has the 3 tokens `!msg`, `bob` and the empty token, and
is inserted with an empty body. -/
theorem saveMessage_stores_empty_fields :
    split "!msg  bob".toList = ["!msg".toList, [], "bob".toList]
    ∧ (saveMessage noFaults "t0".toList emptyWorld "alice".toList "!msg  bob".toList false).2.rows
      = [⟨1, "bob".toList, "alice".toList, [], "t0".toList, some 0⟩]
    ∧ split "!msg bob  ".toList = ["!msg".toList, "bob".toList, []]
    ∧ (saveMessage noFaults "t0".toList emptyWorld "alice".toList "!msg bob  ".toList false).2.rows
      = [⟨1, [], "alice".toList, "bob".toList, "t0".toList, some 0⟩] := by
  decide

/-- C2, as stated, fails: for `!msg  bob  hi` the stored recipient is the empty
string and the stored body is `bob  hi`, while `!msg bob hi` stores the
recipient `bob`. -/
theorem recipient_resolution_counterexample :
    (saveMessage noFaults "t0".toList emptyWorld "alice".toList "!msg  bob  hi".toList
        false).2.rows
      = [⟨1, "bob  hi".toList, "alice".toList, [], "t0".toList, some 0⟩]
    ∧ (saveMessage noFaults "t0".toList emptyWorld "alice".toList "!msg bob hi".toList
        false).2.rows
      = [⟨1, "hi".toList, "alice".toList, "bob".toList, "t0".toList, some 0⟩] := by
  decide

theorem fields_eq_singleton_nil {α : Type} (p : α → Bool) (l : List α)
    (h : fields p l = [[]]) : l = [] := by
  cases l with
  | nil => rfl
  | cons a as =>
    exfalso
    simp only [fields] at h
    by_cases ha : p a = true
    · simp [ha, fields_ne_nil] at h
    · simp only [ha] at h
      cases hf : fields p as with
      | nil => exact fields_ne_nil _ _ hf
      | cons f fs => simp [hf] at h

theorem dropFinalEmpty_ne_nil (l : List Str) (h1 : l ≠ []) (h2 : l ≠ [[]]) :
    dropFinalEmpty l ≠ [] := by
  unfold dropFinalEmpty
  split_ifs with h
  · intro hd
    cases l with
    | nil => exact h1 rfl
    | cons x xs =>
      cases xs with
      | nil =>
        simp at h
        exact h2 (by rw [h])
      | cons y ys => simp at hd
  · exact h1

/-- The tokens of a command whose recipient follows the command after one
space: the command, the recipient, and at least one more token. -/
theorem split_command (r rest : Str) (hs : spaceFree r) (hrest : rest ≠ []) :
    ∃ t ts, split ("!msg ".toList ++ r ++ ' ' :: rest) = "!msg".toList :: r :: t :: ts := by
  have h1 : "!msg ".toList ++ r ++ ' ' :: rest = "!msg".toList ++ ' ' :: (r ++ ' ' :: rest) := by
    simp
  have hcmd : ∀ x ∈ "!msg".toList, isspace x = false := by decide
  have hsp : isspace ' ' = true := by decide
  rw [split_eq_splitSpec, h1]
  unfold splitSpec
  rw [fields_append_sep _ _ _ _ hcmd hsp, fields_append_sep _ _ _ _ hs hsp,
    dropFinalEmpty_cons _ _ (by simp), dropFinalEmpty_cons _ _ (fields_ne_nil _ _)]
  have hne : dropFinalEmpty (fields isspace rest) ≠ [] :=
    dropFinalEmpty_ne_nil _ (fields_ne_nil _ _)
      (fun h => hrest (fields_eq_singleton_nil _ _ h))
  cases hd : dropFinalEmpty (fields isspace rest) with
  | nil => exact absurd hd hne
  | cons t ts => exact ⟨t, ts, rfl⟩

/-- C2, as the code has it: repeated whitespace after the recipient does not
change the recipient.  For every whitespace-free recipient `r`, every `j ≥ 1`
and every non-empty `b`, capturing `!msg`, one space, `r`, `j` spaces, `b`
stores one row whose recipient is `r`, as capturing the single-spaced command
does.  Whitespace before the recipient is not skipped: with two whitespace
characters after the command the second token is the empty token. -/
theorem recipient_resolution (now : Str) (w : World) (fromUser r b : Str) (j : Nat)
    (isPrivate : Bool) (hs : spaceFree r) (hb : b ≠ []) (hj : 1 ≤ j) :
    (saveMessage noFaults now w fromUser ("!msg ".toList ++ r ++ List.replicate j ' ' ++ b)
        isPrivate).2.rows.map (fun row => row.to_user)
      = w.rows.map (fun row => row.to_user) ++ [r]
    ∧ (saveMessage noFaults now w fromUser ("!msg ".toList ++ r ++ " ".toList ++ b)
        isPrivate).2.rows.map (fun row => row.to_user)
      = w.rows.map (fun row => row.to_user) ++ [r]
    ∧ ∀ rest : Str, (split ("!msg  ".toList ++ rest))[1]? = some [] := by
  have hgen : ∀ rest : Str, rest ≠ [] →
      (saveMessage noFaults now w fromUser ("!msg ".toList ++ r ++ ' ' :: rest)
        isPrivate).2.rows.map (fun row => row.to_user)
      = w.rows.map (fun row => row.to_user) ++ [r] := by
    intro rest hrest
    obtain ⟨t, ts, hsplit⟩ := split_command r rest hs hrest
    rw [(saveMessage_world noFaults now w fromUser _ isPrivate).1, hsplit]
    simp [noFaults]
  refine ⟨?_, ?_, ?_⟩
  · obtain ⟨k, rfl⟩ : ∃ k, j = k + 1 := ⟨j - 1, by omega⟩
    have h1 : "!msg ".toList ++ r ++ List.replicate (k + 1) ' ' ++ b
        = "!msg ".toList ++ r ++ ' ' :: (List.replicate k ' ' ++ b) := by
      simp [List.replicate_succ]
    rw [h1]
    exact hgen _ (by simp [hb])
  · have h1 : "!msg ".toList ++ r ++ " ".toList ++ b = "!msg ".toList ++ r ++ ' ' :: b := by
      simp
    rw [h1]
    exact hgen _ hb
  · intro rest
    have h1 : "!msg  ".toList ++ rest = "!msg".toList ++ ' ' :: ([] ++ ' ' :: rest) := by
      simp
    have hcmd : ∀ x ∈ "!msg".toList, isspace x = false := by decide
    have hsp : isspace ' ' = true := by decide
    rw [split_eq_splitSpec, h1]
    unfold splitSpec
    rw [fields_append_sep _ _ _ _ hcmd hsp, fields_append_sep _ _ _ _ (by simp) hsp,
      dropFinalEmpty_cons _ _ (by simp)]
    cases hf : fields isspace rest with
    | nil => exact absurd hf (fields_ne_nil _ _)
    | cons x xs =>
      rw [dropFinalEmpty_cons _ _ (by simp)]
      simp

/-- The recipient `bob` followed by two spaces and the body `hi`. -/
theorem recipient_resolution_witness :
    spaceFree "bob".toList ∧ "hi".toList ≠ [] ∧ 1 ≤ 2
    ∧ (saveMessage noFaults "t0".toList emptyWorld "alice".toList
        ("!msg ".toList ++ "bob".toList ++ List.replicate 2 ' ' ++ "hi".toList)
        false).2.rows.map (fun row => row.to_user)
      = emptyWorld.rows.map (fun row => row.to_user) ++ ["bob".toList] :=
  ⟨by unfold spaceFree; decide, by decide, by decide,
    (recipient_resolution "t0".toList emptyWorld "alice".toList "bob".toList "hi".toList 2 false
      (by unfold spaceFree; decide) (by decide) (by decide)).1⟩

/-! ## Round trip for an identity without a quote -/

theorem fields_cons {α : Type} (p : α → Bool) (a : α) (as : List α) :
    fields p (a :: as)
      = if p a then [] :: fields p as
        else
          match fields p as with
          | [] => [[a]]
          | f :: fs => (a :: f) :: fs := rfl

/-- Joining the fields of a text with single spaces gives the text back, when
its only whitespace characters are spaces. -/
theorem intercalate_fields (b : Str) (hb : ∀ c ∈ b, isspace c = true → c = ' ') :
    List.intercalate [' '] (fields isspace b) = b := by
  induction b with
  | nil => simp [fields, List.intercalate]
  | cons a as ih =>
    have ih1 := ih (fun c hc => hb c (List.mem_cons_of_mem _ hc))
    cases hf : fields isspace as with
    | nil => exact absurd hf (fields_ne_nil _ _)
    | cons f fs =>
      rw [hf, intercalate_cons_eq] at ih1
      by_cases ha : isspace a = true
      · have hsp : a = ' ' := hb a (List.mem_cons_self _ _) ha
        have hfa : fields isspace (a :: as) = [] :: f :: fs := by
          rw [fields_cons, ha, hf]; rfl
        rw [hfa, intercalate_cons_eq]
        simp only [List.map_cons, List.flatten_cons, List.nil_append]
        rw [List.append_assoc, ih1, hsp]
        rfl
      · have ha2 : isspace a = false := by simpa using ha
        have hfa : fields isspace (a :: as) = (a :: f) :: fs := by
          rw [fields_cons, ha2, hf]; rfl
        rw [hfa, intercalate_cons_eq, List.cons_append, ih1]

/-- The last field of a text that does not end in whitespace is not empty. -/
theorem fields_getLast (b : Str) (c : Char) (hl : b.getLast? = some c) (hc : isspace c = false) :
    ∃ l v, fields isspace b = l ++ [v] ∧ v ≠ [] := by
  induction b with
  | nil => simp at hl
  | cons a as ih =>
    cases as with
    | nil =>
      simp at hl
      subst hl
      exact ⟨[], [a], by simp [fields, hc], by simp⟩
    | cons a2 as2 =>
      rw [List.getLast?_cons_cons] at hl
      obtain ⟨l, v, hlv, hv⟩ := ih hl
      by_cases ha : isspace a = true
      · exact ⟨[] :: l, v, by rw [fields_cons, ha, hlv]; rfl, hv⟩
      · have ha2 : isspace a = false := by simpa using ha
        cases l with
        | nil => exact ⟨[], a :: v, by rw [fields_cons, ha2, hlv]; rfl, by simp⟩
        | cons x xs => exact ⟨(a :: x) :: xs, v, by rw [fields_cons, ha2, hlv]; rfl, hv⟩

theorem isInfix_mid {α : Type} (s l t : List α) : l <:+: s ++ (l ++ t) :=
  ⟨s, t, by simp⟩

theorem isInfix_right {α : Type} (s : List α) {l t : List α} (h : l <:+: t) : l <:+: s ++ t :=
  h.trans (List.suffix_append s t).isInfix

theorem rtrim_of_last (b : Str) (c : Char) (hl : b.getLast? = some c) (hc : isspace c = false) :
    rtrim b = b := by
  unfold rtrim
  have h1 : b.reverse.head? = some c := by rw [List.head?_reverse]; exact hl
  cases hr : b.reverse with
  | nil => simp [hr] at h1
  | cons x xs =>
    rw [hr] at h1
    simp at h1
    subst h1
    simp [List.dropWhile, hc, ← hr]

theorem ltrim_of_head (b : Str) (c : Char) (hh : b.head? = some c) (hc : isspace c = false) :
    ltrim b = b := by
  unfold ltrim
  cases b with
  | nil => rfl
  | cons x xs =>
    simp at hh
    subst hh
    simp [List.dropWhile, hc]

/-- Round trip of capture and delivery for a recipient without a quote: for
every sender, every whitespace-free recipient `r` without a quote and every
body `b` that starts and ends with a non-whitespace character and whose only
whitespace characters are spaces, from a table holding no message for `r` and
with every store operation succeeding, `saveMessage` followed by `sendMessage`
sends exactly one message, whose text contains the sender, `r` and `b`, and
afterwards the table holds no row addressed to `r`. -/
theorem round_trip_quoteFree (now : Str) (ctx : irc_ctx_t) (w : World) (fromUser r b : Str)
    (isPrivate : Bool) (first last : Char)
    (hrs : spaceFree r) (hrq : quoteFree r)
    (hfirst : b.head? = some first) (hfirst2 : isspace first = false)
    (hlast : b.getLast? = some last) (hlast2 : isspace last = false)
    (hsp : ∀ c ∈ b, isspace c = true → c = ' ')
    (hw : ∀ row ∈ w.rows, row.to_user ≠ r) :
    ∃ target text,
      sentMessages (sendMessage noFaults ctx
          (saveMessage noFaults now w fromUser ("!msg ".toList ++ r ++ " ".toList ++ b)
            isPrivate).2 r).trace
        = sentMessages w.trace ++ [(target, text)]
      ∧ fromUser <:+: text ∧ r <:+: text ∧ b <:+: text
      ∧ ∀ row ∈ (sendMessage noFaults ctx
          (saveMessage noFaults now w fromUser ("!msg ".toList ++ r ++ " ".toList ++ b)
            isPrivate).2 r).rows, row.to_user ≠ r := by
  have hbne : b ≠ [] := by intro h; simp [h] at hfirst
  -- the tokens
  have htext : "!msg ".toList ++ r ++ " ".toList ++ b
      = "!msg".toList ++ ' ' :: (r ++ ' ' :: b) := by simp
  have hcmd : ∀ x ∈ "!msg".toList, isspace x = false := by decide
  have hspace : isspace ' ' = true := by decide
  obtain ⟨l, v, hlv, hv⟩ := fields_getLast b last hlast hlast2
  have hsplit : split ("!msg ".toList ++ r ++ " ".toList ++ b)
      = "!msg".toList :: r :: fields isspace b := by
    rw [split_eq_splitSpec, htext]
    unfold splitSpec
    rw [fields_append_sep _ _ _ _ hcmd hspace, fields_append_sep _ _ _ _ hrs hspace,
      dropFinalEmpty_cons _ _ (by simp), dropFinalEmpty_cons _ _ (fields_ne_nil _ _),
      hlv, dropFinalEmpty_of_last _ _ hv]
  have hlen : 3 ≤ (split ("!msg ".toList ++ r ++ " ".toList ++ b)).length := by
    rw [hsplit, hlv]; simp
  have hbody : trim (joinTokens (split ("!msg ".toList ++ r ++ " ".toList ++ b))) = b := by
    rw [trim_joinTokens, hsplit]
    simp only [List.drop_succ_cons, List.drop_zero]
    rw [intercalate_fields b hsp]
    unfold trim
    rw [rtrim_of_last b last hlast hlast2, ltrim_of_head b first hfirst hfirst2]
  -- the state after the capture
  obtain ⟨hrows, htrace, _⟩ :=
    saveMessage_world noFaults now w fromUser ("!msg ".toList ++ r ++ " ".toList ++ b) isPrivate
  rw [if_pos ⟨hlen, rfl, rfl⟩, hbody, hsplit] at hrows
  rw [if_pos hlen] at htrace
  simp only [List.getD_cons_succ, List.getD_cons_zero] at hrows
  generalize (saveMessage noFaults now w fromUser ("!msg ".toList ++ r ++ " ".toList ++ b)
    isPrivate).2 = w1 at hrows htrace
  -- the rows addressed to the recipient
  have hfilter : w1.rows.filter (fun row => decide (row.to_user = r))
      = [{ id := w.lastId + 1, message := b, from_user := fromUser, to_user := r,
           date_added := now, is_private := some (if isPrivate then 1 else 0) }] := by
    rw [hrows, List.filter_append]
    have h1 : w.rows.filter (fun row => decide (row.to_user = r)) = [] := by
      rw [List.filter_eq_nil_iff]
      intro row hrow
      simp [hw row hrow]
    rw [h1]
    simp
  obtain ⟨hsent, _, _, _⟩ := sendMessage_quoteFree ctx w1 r hrq
  rw [hfilter] at hsent
  have hget := getMessages_quoteFree noFaults w1.rows r hrq rfl
  rw [hfilter] at hget
  refine ⟨if (readRow r (⟨w.lastId + 1, b, fromUser, r, now,
        some (if isPrivate then 1 else 0)⟩ : Row)).isPrivate ≠ 0 then r else ctx.channel,
    (readRow r (⟨w.lastId + 1, b, fromUser, r, now,
        some (if isPrivate then 1 else 0)⟩ : Row)).buildMessage,
    ?_, ?_, ?_, ?_, ?_⟩
  · rw [hsent, htrace, sentMessages_append]
    simp only [List.map_cons, List.map_nil]
    simp [sentMessages]
  · rw [buildMessage_eq]
    simp only [readRow, List.append_assoc]
    repeat (first | exact isInfix_mid _ _ _ | apply isInfix_right)
  · rw [buildMessage_eq]
    simp only [readRow, List.append_assoc]
    repeat (first | exact isInfix_mid _ _ _ | apply isInfix_right)
  · rw [buildMessage_eq]
    simp only [readRow, List.append_assoc]
    repeat (first | exact isInfix_mid _ _ _ | apply isInfix_right)
  · intro row hrow
    rw [sendMessage_noFaults_rows, hget, List.mem_filter, hrows] at hrow
    obtain ⟨hmem, hkeep⟩ := hrow
    rcases List.mem_append.mp hmem with h1 | h1
    · exact hw row h1
    · exfalso
      simp only [List.mem_singleton] at h1
      subst h1
      simp [readRow] at hkeep

/-- The round trip of `!msg bob hello there` from `alice`. -/
theorem round_trip_quoteFree_witness :
    ∃ target text,
      sentMessages (sendMessage noFaults ctx0
          (saveMessage noFaults "t0".toList emptyWorld "alice".toList
            ("!msg ".toList ++ "bob".toList ++ " ".toList ++ "hello there".toList) false).2
          "bob".toList).trace
        = sentMessages emptyWorld.trace ++ [(target, text)]
      ∧ "alice".toList <:+: text ∧ "bob".toList <:+: text ∧ "hello there".toList <:+: text
      ∧ ∀ row ∈ (sendMessage noFaults ctx0
          (saveMessage noFaults "t0".toList emptyWorld "alice".toList
            ("!msg ".toList ++ "bob".toList ++ " ".toList ++ "hello there".toList) false).2
          "bob".toList).rows, row.to_user ≠ "bob".toList :=
  round_trip_quoteFree "t0".toList ctx0 emptyWorld "alice".toList "bob".toList
    "hello there".toList false 'h' 'e' (by unfold spaceFree; decide) (by unfold quoteFree; decide)
    (by decide) (by decide) (by decide) (by decide) (by decide) (by decide)

end MessageBot
